import Mathlib

/-!
# Verification of the desilike dependency-pipeline kernel

A shallow embedding, in Lean 4, of the incremental-computation kernel of
`desilike/base.py`: pipeline construction (`BasePipeline.__init__`),
parameter unification (`BasePipeline._set_params`), dirty-tracking and
incremental recalculation (`RuntimeInfo.tocalculate`, `RuntimeInfo.calculate`,
`RuntimeInfo.set_param_values`), the initialization/invalidation cascade
(`InitConfig.updated`, `RuntimeInfo.initialized`, `RuntimeInfo.requires`),
the parameter-blocking footprint computation (`BasePipeline.block_params`)
and the batched distributed evaluation (`BasePipeline.mpicalculate`).

Calculators are identified by natural numbers.  The forward dependency
edges (`RuntimeInfo.requires`) are a function `req : Nat → List Nat`;
the back references (`RuntimeInfo.required_by`) are, where needed, part of
a mutable per-calculator state.  Python's unbounded recursion is embedded
with an explicit fuel argument: every recursive call consumes fuel, and
running out of fuel yields `none`, so a `some` result corresponds exactly
to a terminating run of the Python source.
-/

namespace Desilike

/-! ## Pipeline construction (`BasePipeline.__init__`, base.py lines 96-116)

The Python walk is

    def callback(calculator):
        self.calculators.append(calculator.runtime_info.initialize())
        for require in calculator.runtime_info.requires:
            if require in self.calculators:
                del self.calculators[self.calculators.index(require)]
            callback(require)
    callback(calculator)
    ...
    self.calculators = self.calculators[::-1]

`cbList req fuel rs acc` embeds the inner `for` loop of `callback` over the
still-to-process requirements `rs`, with `acc` the current `self.calculators`
list.  `del lst[lst.index(r)]` guarded by `r in lst` removes the first
occurrence of `r` when present and is exactly `List.erase`.  Processing a
requirement `r` erases it and then re-enters `callback r`, i.e. appends `r`
and loops over `req r`. -/

def cbList (req : Nat → List Nat) : Nat → List Nat → List Nat → Option (List Nat)
  | _, [], acc => some acc
  | 0, _ :: _, _ => none
  | fuel + 1, r :: rs, acc =>
      match cbList req fuel (req r) (acc.erase r ++ [r]) with
      | none => none
      | some acc' => cbList req fuel rs acc'

/-- The flattened calculator list of `BasePipeline.__init__`: run `callback`
on the root (append the root, then loop over its requirements) and reverse
the result. -/
def pipelineCalculators (req : Nat → List Nat) (fuel root : Nat) : Option (List Nat) :=
  (cbList req fuel (req root) [root]).map List.reverse

/-- Reflexive-transitive reachability along `requires` edges. -/
inductive Reaches (req : Nat → List Nat) : Nat → Nat → Prop
  | refl (x : Nat) : Reaches req x x
  | step {x y z : Nat} : y ∈ req x → Reaches req y z → Reaches req x z

/-! ## Runtime state and incremental recalculation
(`RuntimeInfo.tocalculate` / `calculate` / `set_param_values`,
`BasePipeline.calculate`, base.py lines 191-213 and 544-588)

The per-calculator runtime state keeps exactly the fields the claims are
about: the private dirty flag `_tocalculate`, the `calculated` flag set by
the last execution, and the cached parameter-value map `param_values`
(basename → value; values are embedded as integers, so Python's
"type differs or value differs" test collapses to inequality).  The
calculation hook itself, timing and derived outputs play no role in the
claims and are not part of the state. -/

structure CalcState where
  tocalc : Bool
  calculated : Bool
  cache : String → Int

abbrev CalcWorld := Nat → CalcState

def updW (w : CalcWorld) (c : Nat) (s : CalcState) : CalcWorld :=
  fun x => if x = c then s else w x

/-- `RuntimeInfo.set_param_values(params, full=True)` (base.py 569-579) with
`force=None`: for each incoming pair whose name is one of the calculator's
varied parameters, set the dirty flag if the cached value differs, and store
the value. -/
def setParamValuesFull (varied : List String) :
    List (String × Int) → CalcState → CalcState
  | [], s => s
  | nv :: rest, s =>
      setParamValuesFull varied rest
        (if nv.1 ∈ varied then
          { s with
            tocalc := if s.cache nv.1 = nv.2 then s.tocalc else true,
            cache := fun n => if n = nv.1 then nv.2 else s.cache n }
        else s)

/-- `RuntimeInfo.tocalculate` (base.py 544-546): the own dirty flag, or some
required calculator's `calculated` flag. -/
def tocalculate (req : Nat → List Nat) (w : CalcWorld) (c : Nat) : Bool :=
  (w c).tocalc || (req c).any fun r => (w r).calculated

/-- `RuntimeInfo.calculate` (base.py 552-567), with the calculation hook, the
monitor and the derived cache abstracted away: if `tocalculate`, run and set
`calculated = True`, else set `calculated = False`; clear the own dirty flag
either way. -/
def calcStep (req : Nat → List Nat) (w : CalcWorld) (c : Nat) : CalcWorld :=
  if tocalculate req w c then
    updW w c { w c with calculated := true, tocalc := false }
  else
    updW w c { w c with calculated := false, tocalc := false }

/-- The `RuntimeInfo.tocalculate` setter (base.py 548-550), used by
`BasePipeline.tocalculate`'s setter to force a calculator dirty. -/
def forceDirty (w : CalcWorld) (c : Nat) : CalcWorld :=
  updW w c { w c with tocalc := true }

/-- `BasePipeline.__init__` marks every calculator of the freshly built
pipeline dirty (base.py 113-114). -/
def markAllDirty : List Nat → CalcWorld → CalcWorld
  | [], w => w
  | c :: cs, w => markAllDirty cs (forceDirty w c)

/-- The calculator loop of `BasePipeline.calculate` (base.py 200-206): in
dependency order, feed each calculator the full merged value map and run its
`RuntimeInfo.calculate`. -/
def pipelinePass (req : Nat → List Nat) (varied : Nat → List String)
    (incoming : List (String × Int)) : List Nat → CalcWorld → CalcWorld
  | [], w => w
  | c :: cs, w =>
      pipelinePass req varied incoming cs
        (calcStep req (updW w c (setParamValuesFull (varied c) incoming (w c))) c)

/-! ## Parameters and unification (`BasePipeline._set_params`, base.py 119-154)

`Parameter` and `ParameterCollection` live in `desilike/parameter.py`, which
is not among the sources here; they are modelled from the spec (§3): a
parameter is "name (namespace + basename), value, status flags
{fixed, varied, derived, solved}, optional dependency expression ...,
optional prior", with "equality/identity ... by qualified name; two parameter
definitions with the same name but different attributes are a conflict", so
parameter equality in `_set_params` is structural equality of this record.
The prior is an opaque payload: unequal payloads mean different priors. -/

structure Param where
  name : String
  derived : Bool
  fixed : Bool
  value : Int
  prior : Nat
  depends : List String
  deriving DecidableEq, Repr

inductive PipelineErr where
  | conflict (name : String) (calcIdx other : Nat)
  | unattributable (name : String)
  deriving DecidableEq, Repr

/-- Modelled from the spec: `ParameterCollection` (in `desilike/parameter.py`,
not among the sources here) is "an ordered set of Parameters, unique by
qualified name" (§3), and §4.3 requires the earlier definition to be kept
when a duplicate arrives ("if both are derived-and-fixed, keep the earlier
one and warn"); so `set` inserts only when the qualified name is not yet
present. -/
def pcSet (ps : List Param) (p : Param) : List Param :=
  if ps.any fun q => q.name == p.name then ps else ps ++ [p]

def pcHas (ps : List Param) (n : String) : Bool :=
  ps.any fun q => q.name == n

def pcGet (ps : List Param) (n : String) : Option Param :=
  ps.find? fun q => q.name == n

/-- Modelled from the spec: `ParameterCollectionConfig.clone` (in
`desilike/parameter.py`, not among the sources here) clones each declared
parameter "against any externally supplied override configuration (by
qualified name)" (§4.3): a matching external entry overrides the
declaration. -/
def cloneAgainst (ext : List Param) (p : Param) : Param :=
  match ext.find? (fun e => e.name == p.name) with
  | some e => e
  | none => p

/-- The evolving state of `_set_params`: the unified collection `new_params`,
the `params_from_calculator` map (qualified name → index of the last
calculator that contributed it), the warnings emitted so far (base.py 131-133
warns only on rank 0), and the per-calculator `new_calculator_params`
assignments (base.py 139). -/
structure UState where
  newParams : List Param
  pfc : String → Nat
  warnings : List String
  calcParams : List (Nat × List Param)

def initUState : UState := ⟨[], fun _ => 0, [], []⟩

/-- The inner parameter loop of `_set_params` (base.py 127-138) for the
calculator of index `i`, whose cloned parameters are `ps`: on a name already
contributed, a derived-and-fixed incoming parameter only warns (on rank 0),
an unequal incoming parameter raises the conflict error naming the current
and the previously contributing calculator; then record the contribution. -/
def unifyParams (rank i : Nat) :
    List Param → UState → List Param → Except PipelineErr (UState × List Param)
  | [], st, ncp => .ok (st, ncp)
  | p :: ps, st, ncp =>
      match
        (if pcHas st.newParams p.name then
          if p.derived && p.fixed then
            Except.ok { st with
              warnings := if rank = 0 then st.warnings ++ [p.name] else st.warnings }
          else if (pcGet st.newParams p.name).getD p ≠ p then
            Except.error (.conflict p.name i (st.pfc p.name))
          else Except.ok st
        else Except.ok st : Except PipelineErr UState)
      with
      | .error e => .error e
      | .ok st =>
          unifyParams rank i ps
            { st with
              pfc := fun n => if n = p.name then i else st.pfc n,
              newParams := pcSet st.newParams p }
            (pcSet ncp p)

/-- The calculator loop of `_set_params` (base.py 123-139): clone each
calculator's declared parameters against the external configuration, unify
them, and store the resulting `new_calculator_params` on the calculator. -/
def unifyCalcs (rank : Nat) (ext : List Param) :
    List (List Param) → Nat → UState → Except PipelineErr UState
  | [], _, st => .ok st
  | ps :: rest, i, st =>
      match unifyParams rank i (ps.map (cloneAgainst ext)) st [] with
      | .error e => .error e
      | .ok (st, ncp) =>
          unifyCalcs rank ext rest (i + 1)
            { st with calcParams := st.calcParams ++ [(i, ncp)] }

/-- The external-parameter loop of `_set_params` (base.py 140-144): an
externally supplied parameter referenced by some unified parameter's
dependency expression is retained; one matching no unified name raises the
unattributable error. -/
def extStep (newParams : List Param) (e : Param) : List Param :=
  if newParams.any (fun q => q.depends.contains e.name) then pcSet newParams e
  else newParams

def extLoop (newParams : List Param) : List Param → Except PipelineErr (List Param)
  | [] => .ok newParams
  | e :: es =>
      if pcHas (extStep newParams e) e.name then extLoop (extStep newParams e) es
      else Except.error (.unattributable e.name)

/-- The previous-parameter loop of `_set_params` (base.py 145-149):
previously unified parameters no longer declared but still referenced by a
surviving dependency expression are retained. -/
def prevLoop (newParams : List Param) : List Param → List Param
  | [] => newParams
  | q :: qs =>
      prevLoop
        (if pcHas newParams q.name then newParams
         else if newParams.any (fun r => r.depends.contains q.name) then pcSet newParams q
         else newParams) qs

/-- `BasePipeline._set_params` (base.py 119-154): unify the calculators'
parameters under the external configuration `ext`, then check external
attributability and retain still-referenced previous parameters `prev`.
It runs inside `BasePipeline.__init__` (base.py 116), before any call of a
calculation hook. -/
def setParams (rank : Nat) (ext prev : List Param) (calcs : List (List Param)) :
    Except PipelineErr UState :=
  match unifyCalcs rank ext calcs 0 initUState with
  | .error e => .error e
  | .ok st =>
      match extLoop st.newParams ext with
      | .error e => .error e
      | .ok np => .ok { st with newParams := prevLoop np prev }

def isOkE (e : Except PipelineErr UState) : Bool :=
  match e with
  | .ok _ => true
  | .error _ => false

/-! ## Footprints for parameter blocking (`BasePipeline.block_params`,
base.py 349-364)

The footprint callback is

    def callback(calculator):
        for calculator in calculator.runtime_info.required_by:
            calculators_to_calculate.append(calculator)
            callback(calculator)
    for calculator in self.calculators:
        if param in calculator.runtime_info.params:
            callback(calculator)

Note that `callback` appends only the members of `required_by`: the
calculator it is invoked on is itself never appended. -/

def fpList (rb : Nat → List Nat) : Nat → List Nat → List Nat → Option (List Nat)
  | _, [], acc => some acc
  | 0, _ :: _, _ => none
  | fuel + 1, d :: ds, acc =>
      match fpList rb fuel (rb d) (acc ++ [d]) with
      | none => none
      | some acc' => fpList rb fuel ds acc'

/-- The accumulated `calculators_to_calculate` for one parameter `p`: run the
callback from every pipeline calculator declaring `p` (base.py 358-360),
sharing the accumulator across declaring calculators. -/
def footprintAcc (rb : Nat → List Nat) (declares : Nat → String → Bool)
    (fuel : Nat) (p : String) : List Nat → List Nat → Option (List Nat)
  | [], acc => some acc
  | c :: cs, acc =>
      if declares c p then
        match fpList rb fuel (rb c) acc with
        | none => none
        | some acc' => footprintAcc rb declares fuel p cs acc'
      else footprintAcc rb declares fuel p cs acc

/-- The footprint tuple
`tuple(calculator in calculators_to_calculate for calculator in self.calculators)`
(base.py 362). -/
def footprint (rb : Nat → List Nat) (declares : Nat → String → Bool)
    (fuel : Nat) (L : List Nat) (p : String) : Option (List Bool) :=
  (footprintAcc rb declares fuel p L []).map fun acc => L.map fun c => acc.contains c

/-- `unique_footprints = list(set(...))`; `param_blocks` groups the
parameters whose footprint equals each unique footprint (base.py 363-364).
Python's hash-set order is modelled as first-occurrence order (`dedup`),
which the grouping property does not depend on. -/
def paramBlocks (fps : List (String × List Bool)) : List (List String) :=
  ((fps.map Prod.snd).dedup).map fun uf => (fps.filter fun q => q.2 == uf).map Prod.fst

/-! ## InitConfig mutation and the de-initialization cascade
(`InitConfig.updated` base.py 38-66 and 79-91, `RuntimeInfo.initialized`
base.py 518-530, `RuntimeInfo.initialize` 532-542,
`RuntimeInfo.requires` setter 463-480)

Per-calculator state: the InitConfig's positional args, parameter collection,
keyed entries and `_updated` flag, and the RuntimeInfo's `_initialized` flag,
cached `_pipeline` (modelled as `Option Unit`), `required_by` back-reference
set (insertion-ordered, duplicate-free list) and lazily discovered
`_requires` (`none` = not yet discovered). -/

structure RTState where
  args : List Int
  cfgParams : List Param
  dataKV : List (String × Int)
  updated : Bool
  initialized : Bool
  pipeline : Option Unit
  requiredBy : List Nat
  requires : Option (List Nat)

abbrev IWorld := Nat → RTState

def updI (w : IWorld) (c : Nat) (s : RTState) : IWorld :=
  fun x => if x = c then s else w x

/-- The `False` branch of the `RuntimeInfo.initialized` setter
(base.py 522-530), as a worklist: set `_initialized = False`, drop the cached
pipeline, and recurse into `required_by`.  Fuel-bounded: `none` means the
recursion of the Python source would not have terminated within `fuel`. -/
def cascadeFalse : Nat → IWorld → List Nat → Option IWorld
  | _, w, [] => some w
  | 0, _, _ :: _ => none
  | fuel + 1, w, c :: cs =>
      match cascadeFalse fuel (updI w c { w c with initialized := false, pipeline := none })
          ((w c).requiredBy) with
      | none => none
      | some w2 => cascadeFalse fuel w2 cs

/-- `runtime_info.initialized = False` (base.py 522-530). -/
def setInitializedFalse (fuel : Nat) (w : IWorld) (c : Nat) : Option IWorld :=
  cascadeFalse fuel w [c]

/-- `runtime_info.initialized = True` (base.py 522-526): also clears the
InitConfig's raw `_updated` flag. -/
def setInitializedTrue (w : IWorld) (c : Nat) : IWorld :=
  updI w c { w c with initialized := true, updated := false }

/-- The `InitConfig.updated` setter (base.py 42-48): store the flag; a true
value de-initializes the attached RuntimeInfo. -/
def setUpdated (fuel : Nat) (w : IWorld) (c : Nat) (b : Bool) : Option IWorld :=
  let w1 := updI w c { w c with updated := b }
  if b then setInitializedFalse fuel w1 c else some w1

/-- The `InitConfig.args` setter (base.py 54-57). -/
def cfgSetArgs (fuel : Nat) (w : IWorld) (c : Nat) (a : List Int) : Option IWorld :=
  setUpdated fuel (updI w c { w c with args := a }) c true

/-- The `InitConfig.params` setter (base.py 63-66). -/
def cfgSetParams (fuel : Nat) (w : IWorld) (c : Nat) (ps : List Param) : Option IWorld :=
  setUpdated fuel (updI w c { w c with cfgParams := ps }) c true

/-- A keyed mutation such as `__setitem__` (base.py 79-91): the wrapper sets
`updated = True` and then performs the dictionary operation. -/
def cfgSetItem (fuel : Nat) (w : IWorld) (c : Nat) (k : String) (v : Int) :
    Option IWorld :=
  match setUpdated fuel w c true with
  | none => none
  | some w1 => some (updI w1 c { w1 c with dataKV := (w1 c).dataKV ++ [(k, v)] })

/-- `RuntimeInfo.initialize` (base.py 532-542) with the trivial calculator
initialization hook of `BaseCalculator` (`pass`): a no-op when already
initialized, otherwise `clear()` resets the RuntimeInfo (fresh empty
`required_by`, undiscovered `_requires`, no cached pipeline) and
`initialized = True` clears the InitConfig's updated flag. -/
def initializeRT (w : IWorld) (c : Nat) : IWorld :=
  if (w c).initialized then w
  else
    setInitializedTrue
      (updI w c { w c with requiredBy := [], requires := none, pipeline := none }) c

/-- `required_by.add(self.calculator)`: a Python set insertion. -/
def rbAdd (l : List Nat) (c : Nat) : List Nat :=
  if c ∈ l then l else l ++ [c]

/-- The loop of the `RuntimeInfo.requires` setter (base.py 476-479): each
requirement is initialized first (otherwise its RuntimeInfo would later be
cleared and `required_by` lost) and then records the owner `c` in its
`required_by`. -/
def acquireLoop (c : Nat) : List Nat → IWorld → IWorld
  | [], w => w
  | r :: rs, w =>
      acquireLoop c rs
        (let w' := initializeRT w r
         updI w' r { w' r with requiredBy := rbAdd ((w' r).requiredBy) c })

/-- The `RuntimeInfo.requires` setter (base.py 473-480): store the list, run
the acquisition loop, drop the cached pipeline. -/
def setRequires (w : IWorld) (c : Nat) (rs : List Nat) : IWorld :=
  let w2 := acquireLoop c rs (updI w c { w c with requires := some rs })
  updI w2 c { w2 c with pipeline := none }

/-! ## Batched distributed evaluation (`BasePipeline.mpicalculate`,
base.py 215-250) -/

/-- The per-rank local result dictionaries of `mpicalculate`
(base.py 235-242): rank `k` computes its contiguous shard sequentially,
keying each result by `ivalue + cumsizes[rank]`; `o` is the running prefix
sum (`cumsizes`) of the shard sizes. -/
def shardStates (f : Int → Int) : Nat → List Int → List Nat → List (Nat × Int)
  | _, _, [] => []
  | o, xs, s :: ss =>
      (((xs.take s).enumFrom o).map fun q => (q.1, f q.2)) ++
        shardStates f (o + s) (xs.drop s) ss

/-- Modelled from the spec: `mpi.scatter` (module `desilike/mpi.py`, not
among the sources here) splits the root's flattened array into contiguous
per-rank shards, whose sizes `allgather` collects into `sizes`.  The root
then merges the gathered per-rank dictionaries and reassembles
`[derived[i] for i in range(cumsizes[-1])]` (base.py 244-249); a missing
index would be a lookup failure (`none`). -/
def mpicalculate (f : Int → Int) (xs : List Int) (sizes : List Nat) :
    Option (List Int) :=
  (List.range sizes.sum).mapM fun i => (shardStates f 0 xs sizes).lookup i

/-! ## Concrete graphs and worlds used for concrete evaluations -/

/-- A diamond dependency graph: 0 requires 1 and 2, both of which require 3. -/
def exReq : Nat → List Nat := fun n =>
  if n = 0 then [1, 2] else if n = 1 then [3] else if n = 2 then [3] else []

/-- A rank function decreasing along `exReq` edges. -/
def exRank : Nat → Nat := fun n =>
  if n = 0 then 3 else if n = 1 then 2 else if n = 2 then 2 else 0

/-- An isolated calculator 0 with no dependents, declaring parameter "p". -/
def exRb : Nat → List Nat := fun _ => []

def exDecl : Nat → String → Bool := fun c _ => c == 0

/-- A varied parameter `x` and a derived-and-fixed parameter of the same
name. -/
def dVaried : Param := ⟨"x", false, false, 0, 0, []⟩

def dDerivedFixed : Param := ⟨"x", true, true, 1, 0, []⟩

def exIW : IWorld :=
  fun _ => ⟨[], [], [], false, false, none, [], none⟩

/-- The world reached by mutating the args of calculator 0's InitConfig. -/
def exW8 : IWorld := (cfgSetArgs 3 exIW 0 [7]).getD exIW

/-- An operation sequence showing the requires/required_by index going stale:
calculator 0 acquires requirement 1; 1's InitConfig is mutated, which
de-initializes 1 (cascading to 0); then calculator 2 acquires 1, whose
initialization clears 1's `required_by` before adding 2. -/
def c10World : Option IWorld :=
  match setUpdated 5 (setRequires exIW 0 [1]) 1 true with
  | none => none
  | some w2 => some (setRequires w2 2 [1])

/-- A trivially fresh calculation world. -/
def exCW : CalcWorld := fun _ => ⟨false, false, fun _ => 0⟩

/-- An external parameter named `z`, declared by no calculator. -/
def pZ : Param := ⟨"z", false, false, 0, 0, []⟩

/-- A second varied parameter named `x` with a different prior. -/
def dVaried2 : Param := ⟨"x", false, false, 0, 1, []⟩

/-- A second derived-and-fixed parameter named `x`. -/
def dDF2 : Param := ⟨"x", true, true, 2, 0, []⟩

/-- The unification state of the one-calculator pipeline `[[dVaried]]`. -/
def exU7 : UState :=
  (unifyCalcs 0 [] [[dVaried]] 0 initUState).toOption.getD initUState

/-! ## Theorems -/

theorem Reaches.rank_le {req : Nat → List Nat} {rank : Nat → Nat}
    (hrank : ∀ x r, r ∈ req x → rank r < rank x) :
    ∀ {a b : Nat}, Reaches req a b → rank b ≤ rank a := by
  intro a b h
  induction h with
  | refl x => exact le_rfl
  | step hy _ ih => exact ih.trans (le_of_lt (hrank _ _ hy))

/-- In a graph with a rank function decreasing along `requires` edges, no
requirement of `x` reaches back to `x`. -/
theorem not_reaches_of_rank {req : Nat → List Nat} {rank : Nat → Nat}
    (hrank : ∀ x r, r ∈ req x → rank r < rank x) {x s : Nat} (hs : s ∈ req x) :
    ¬ Reaches req s x := fun h =>
  absurd (Reaches.rank_le hrank h) (not_le.mpr (hrank _ _ hs))

/-- The workhorse invariant of the `BasePipeline.__init__` walk.  `E` is the
set of calculators whose requirement loop is still running further up the
call stack (they sit in `acc` but their requirements need not yet follow
them).  All other calculators in `acc` are settled: each of their
requirements is in `acc`, strictly after them (`List.Sublist [x, s] acc`). -/
theorem cbList_spec {req : Nat → List Nat} {rank : Nat → Nat}
    (hrank : ∀ x r, r ∈ req x → rank r < rank x) :
    ∀ fuel : Nat, ∀ rs acc acc' E : List Nat,
      cbList req fuel rs acc = some acc' →
      acc.Nodup →
      (∀ x ∈ acc, x ∉ E → ∀ s ∈ req x, s ∈ acc ∧ List.Sublist [x, s] acc) →
      (∀ x ∈ E, ∀ r ∈ rs, ¬ Reaches req r x) →
      acc'.Nodup
      ∧ (∀ x ∈ acc, x ∈ acc')
      ∧ (∀ x ∈ acc', x ∉ E → ∀ s ∈ req x, s ∈ acc' ∧ List.Sublist [x, s] acc')
      ∧ (∀ s ∈ rs, s ∈ acc')
      ∧ (∀ s ∈ rs, ∀ x ∈ E, x ∈ acc → List.Sublist [x, s] acc')
      ∧ (∀ x y : Nat, x ∈ E → List.Sublist [x, y] acc → List.Sublist [x, y] acc') := by
  intro fuel
  induction fuel with
  | zero =>
      intro rs acc acc' E h hnd hGood hE
      match rs, h with
      | [], h =>
          cases h
          exact ⟨hnd, fun x hx => hx, hGood, by simp, by simp, fun x y _ hxy => hxy⟩
  | succ fuel ih =>
      intro rs acc acc' E h hnd hGood hE
      match rs, h with
      | [], h =>
          cases h
          exact ⟨hnd, fun x hx => hx, hGood, by simp, by simp, fun x y _ hxy => hxy⟩
      | r :: rs, h =>
          rw [cbList] at h
          rcases heq : cbList req fuel (req r) (acc.erase r ++ [r]) with _ | acc₂
          · rw [heq] at h; cases h
          rw [heq] at h
          -- excused calculators are distinct from the pending requirement `r`
          have hxr : ∀ x ∈ E, x ≠ r := by
            intro x hx hxeq
            refine hE x hx r (List.mem_cons_self r rs) ?_
            rw [hxeq]
            exact Reaches.refl r
          have hrerase : r ∉ acc.erase r := hnd.not_mem_erase
          have nd1 : (acc.erase r ++ [r]).Nodup := by
            refine (hnd.erase r).append (List.nodup_singleton r) ?_
            intro x hx hxr
            rw [List.mem_singleton] at hxr
            exact hrerase (hxr ▸ hx)
          -- a settled pair with left component in the erased list survives
          have pair_to_A1 : ∀ x y : Nat, x ≠ r → List.Sublist [x, y] acc →
              List.Sublist [x, y] (acc.erase r ++ [r]) := by
            intro x y hxne hxy
            by_cases hyr : y = r
            · rw [hyr]
              have hxmem : x ∈ acc.erase r := by
                refine (List.mem_erase_of_ne hxne).mpr (hxy.subset ?_)
                simp
              have h1 : List.Sublist [x] (acc.erase r) := List.singleton_sublist.mpr hxmem
              exact h1.append (List.Sublist.refl [r])
            · have hnr : r ∉ [x, y] := by
                intro hr
                rcases List.mem_pair.mp hr with h' | h'
                · exact hxne h'.symm
                · exact hyr h'.symm
              have := hxy.erase r
              rw [List.erase_of_not_mem hnr] at this
              exact this.trans (List.sublist_append_left _ _)
          have hmem_A1 : ∀ x ∈ acc, x ∈ acc.erase r ++ [r] := by
            intro x hx
            by_cases hxr' : x = r
            · subst hxr'; simp
            · exact List.mem_append_left _ ((List.mem_erase_of_ne hxr').mpr hx)
          have good1 : ∀ x ∈ acc.erase r ++ [r], x ∉ r :: E →
              ∀ s ∈ req x, s ∈ acc.erase r ++ [r] ∧ List.Sublist [x, s] (acc.erase r ++ [r]) := by
            intro x hx hxE s hs
            have hxne : x ≠ r := fun h' => hxE (h' ▸ List.mem_cons_self r E)
            have hxE' : x ∉ E := fun h' => hxE (List.mem_cons_of_mem r h')
            have hxacc : x ∈ acc := by
              rcases List.mem_append.mp hx with h' | h'
              · exact (List.erase_sublist r acc).subset h'
              · exact absurd (List.mem_singleton.mp h') hxne
            obtain ⟨hsmem, hsub⟩ := hGood x hxacc hxE' s hs
            by_cases hsr : s = r
            · rw [hsr] at hsub ⊢
              exact ⟨by simp, pair_to_A1 x r hxne hsub⟩
            · exact ⟨List.mem_append_left _ ((List.mem_erase_of_ne hsr).mpr hsmem),
                pair_to_A1 x s hxne hsub⟩
          have hE1 : ∀ x ∈ r :: E, ∀ s ∈ req r, ¬ Reaches req s x := by
            intro x hx s hs hre
            rcases List.mem_cons.mp hx with h' | h'
            · exact not_reaches_of_rank hrank hs (h' ▸ hre)
            · exact hE x h' r (List.mem_cons_self r rs) (Reaches.step hs hre)
          obtain ⟨nd2, M1, G1, P1, C1s, OP1⟩ :=
            ih (req r) (acc.erase r ++ [r]) acc₂ (r :: E) heq nd1 good1 hE1
          have good2 : ∀ x ∈ acc₂, x ∉ E → ∀ s ∈ req x, s ∈ acc₂ ∧ List.Sublist [x, s] acc₂ := by
            intro x hx hxE s hs
            by_cases hxr' : x = r
            · subst hxr'
              exact ⟨P1 s hs, C1s s hs x (List.mem_cons_self x E) (by simp)⟩
            · refine G1 x hx ?_ s hs
              intro h'
              rcases List.mem_cons.mp h' with h'' | h''
              · exact hxr' h''
              · exact hxE h''
          have hE2 : ∀ x ∈ E, ∀ r' ∈ rs, ¬ Reaches req r' x := by
            intro x hx r' hr'
            exact hE x hx r' (List.mem_cons_of_mem r hr')
          obtain ⟨nd', M2, G2, P2, C2s, OP2⟩ := ih rs acc₂ acc' E h nd2 good2 hE2
          refine ⟨nd', ?_, G2, ?_, ?_, ?_⟩
          · intro x hx
            exact M2 x (M1 x (hmem_A1 x hx))
          · intro s hs
            rcases List.mem_cons.mp hs with h' | h'
            · rw [h']
              exact M2 r (M1 r (by simp))
            · exact P2 s h'
          · intro s hs x hxE hxacc
            have hxne : x ≠ r := hxr x hxE
            have hxA1 : List.Sublist [x, r] (acc.erase r ++ [r]) :=
              (List.singleton_sublist.mpr
                ((List.mem_erase_of_ne hxne).mpr hxacc)).append (List.Sublist.refl [r])
            rcases List.mem_cons.mp hs with h' | h'
            · rw [h']
              exact OP2 x r hxE (OP1 x r (List.mem_cons_of_mem r hxE) hxA1)
            · exact C2s s h' x hxE (M1 x (hmem_A1 x hxacc))
          · intro x y hxE hxy
            have hxne : x ≠ r := hxr x hxE
            exact OP2 x y hxE (OP1 x y (List.mem_cons_of_mem r hxE)
              (pair_to_A1 x y hxne hxy))


/-- The topological-order property of `BasePipeline.__init__`, in sublist
form: in the reversed (dependency-first) list, every requirement appears
before its dependent. -/
theorem pipelineCalculators_topo {req : Nat → List Nat} {rank : Nat → Nat}
    (hrank : ∀ x r, r ∈ req x → rank r < rank x) {fuel root : Nat} {L : List Nat}
    (h : pipelineCalculators req fuel root = some L) :
    L.Nodup ∧ ∀ c ∈ L, ∀ r ∈ req c, r ∈ L ∧ List.Sublist [r, c] L := by
  rcases hL0 : cbList req fuel (req root) [root] with _ | L0
  · rw [pipelineCalculators, hL0] at h; cases h
  rw [pipelineCalculators, hL0] at h
  have hrev : L0.reverse = L := by
    simpa using h
  have hgood : ∀ x ∈ ([root] : List Nat), x ∉ ([root] : List Nat) →
      ∀ s ∈ req x, s ∈ ([root] : List Nat) ∧ List.Sublist [x, s] [root] := by
    intro x hx hnx
    exact absurd hx hnx
  have hE : ∀ x ∈ ([root] : List Nat), ∀ r ∈ req root, ¬ Reaches req r x := by
    intro x hx r hr
    rw [List.mem_singleton] at hx
    rw [hx]
    exact not_reaches_of_rank hrank hr
  obtain ⟨nd0, M0, G0, P0, C0, _⟩ :=
    cbList_spec hrank fuel (req root) [root] L0 [root] hL0
      (List.nodup_singleton root) hgood hE
  have hall : ∀ c ∈ L0, ∀ s ∈ req c, s ∈ L0 ∧ List.Sublist [c, s] L0 := by
    intro c hc s hs
    by_cases hcr : c = root
    · rw [hcr]
      rw [hcr] at hs
      exact ⟨P0 s hs, C0 s hs root (by simp) (by simp)⟩
    · exact G0 c hc (by simp [hcr]) s hs
  subst hrev
  constructor
  · simpa using nd0
  · intro c hc r hr
    obtain ⟨hrm, hsub⟩ := hall c (by simpa using hc) r hr
    refine ⟨by simpa using hrm, ?_⟩
    have h2 := hsub.reverse
    simpa using h2

/-- In a duplicate-free list, the pair-sublist order gives strictly smaller
index. -/
theorem indexOf_lt_of_pair_sublist {L : List Nat} (hnd : L.Nodup) {x y : Nat}
    (h : List.Sublist [x, y] L) : L.indexOf x < L.indexOf y := by
  induction L with
  | nil =>
      have := h.length_le
      simp at this
  | cons a t ih =>
      obtain ⟨hat, hnt⟩ := List.nodup_cons.mp hnd
      cases h with
      | cons _ h' =>
          have hx : x ∈ t := h'.subset (by simp)
          have hy : y ∈ t := h'.subset (by simp)
          have hxa : a ≠ x := fun he => hat (he ▸ hx)
          have hya : a ≠ y := fun he => hat (he ▸ hy)
          rw [List.indexOf_cons_ne t hxa, List.indexOf_cons_ne t hya]
          exact Nat.succ_lt_succ (ih hnt h')
      | cons₂ _ h' =>
          have hy : y ∈ t := h'.subset (by simp)
          have hya : x ≠ y := fun he => hat (he ▸ hy)
          rw [List.indexOf_cons_self, List.indexOf_cons_ne t hya]
          exact Nat.succ_pos _

/-- **C1**: for every pipeline built from a root calculator
(`BasePipeline.__init__`), the flattened `self.calculators` list is
duplicate-free and dependency-first: every calculator in a calculator's
`requires` set appears at a strictly earlier index of the list, shared
(diamond) dependencies included.  The rank hypothesis expresses that the
reachable dependency graph is acyclic, which is exactly the condition for
the Python recursion (and hence the build) to terminate. -/
theorem C1_pipeline_topological_order (req : Nat → List Nat) (rank : Nat → Nat)
    (hrank : ∀ x r, r ∈ req x → rank r < rank x) (fuel root : Nat) (L : List Nat)
    (h : pipelineCalculators req fuel root = some L) :
    L.Nodup ∧ ∀ c ∈ L, ∀ r ∈ req c, r ∈ L ∧ L.indexOf r < L.indexOf c := by
  obtain ⟨hnd, htopo⟩ := pipelineCalculators_topo hrank h
  refine ⟨hnd, ?_⟩
  intro c hc r hr
  obtain ⟨hm, hsub⟩ := htopo c hc r hr
  exact ⟨hm, indexOf_lt_of_pair_sublist hnd hsub⟩

/-- Witness for C1: on the diamond graph `exReq` the built pipeline is
`[3, 2, 1, 0]`, and the topological-order property holds for it. -/
theorem C1_pipeline_topological_order_witness :
    ([3, 2, 1, 0] : List Nat).Nodup ∧
      ∀ c ∈ ([3, 2, 1, 0] : List Nat), ∀ r ∈ exReq c,
        r ∈ ([3, 2, 1, 0] : List Nat) ∧
          List.indexOf r [3, 2, 1, 0] < List.indexOf c [3, 2, 1, 0] :=
  C1_pipeline_topological_order exReq exRank
    (by
      intro x r hr
      by_cases h0 : x = 0
      · rw [h0] at hr
        simp [exReq] at hr
        rcases hr with rfl | rfl <;> rw [h0] <;> decide
      · by_cases h1 : x = 1
        · rw [h1] at hr
          simp [exReq] at hr
          rw [hr, h1]; decide
        · by_cases h2 : x = 2
          · rw [h2] at hr
            simp [exReq] at hr
            rw [hr, h2]; decide
          · simp [exReq, h0, h1, h2] at hr)
    10 0 [3, 2, 1, 0] (by decide)

theorem updW_self (w : CalcWorld) (c : Nat) (s : CalcState) : updW w c s c = s := by
  simp [updW]

theorem updW_ne (w : CalcWorld) (c : Nat) (s : CalcState) {x : Nat} (h : x ≠ c) :
    updW w c s x = w x := by
  simp [updW, h]

theorem calcStep_ne (req : Nat → List Nat) (w : CalcWorld) (c : Nat) {x : Nat}
    (h : x ≠ c) : calcStep req w c x = w x := by
  rw [calcStep]
  by_cases hc : tocalculate req w c = true
  · rw [if_pos hc, updW_ne _ _ _ h]
  · rw [if_neg hc, updW_ne _ _ _ h]

theorem setPV_calculated (v : List String) :
    ∀ (inc : List (String × Int)) (s : CalcState),
      (setParamValuesFull v inc s).calculated = s.calculated := by
  intro inc
  induction inc with
  | nil => intro s; rfl
  | cons nv rest ih =>
      intro s
      rw [setParamValuesFull, ih]
      by_cases h : nv.1 ∈ v
      · rw [if_pos h]
      · rw [if_neg h]

theorem setPV_tocalc_true (v : List String) :
    ∀ (inc : List (String × Int)) (s : CalcState), s.tocalc = true →
      (setParamValuesFull v inc s).tocalc = true := by
  intro inc
  induction inc with
  | nil => intro s h; exact h
  | cons nv rest ih =>
      intro s h
      rw [setParamValuesFull]
      apply ih
      by_cases hm : nv.1 ∈ v
      · rw [if_pos hm]
        by_cases he : s.cache nv.1 = nv.2
        · simpa [he] using h
        · simp [he]
      · rwa [if_neg hm]

theorem setPV_cache_nomatch (v : List String) :
    ∀ (inc : List (String × Int)) (s : CalcState) (m : String),
      (∀ nv ∈ inc, nv.1 ≠ m) →
      (setParamValuesFull v inc s).cache m = s.cache m := by
  intro inc
  induction inc with
  | nil => intro s m _; rfl
  | cons nv rest ih =>
      intro s m hne
      rw [setParamValuesFull, ih _ _ (fun q hq => hne q (List.mem_cons_of_mem nv hq))]
      by_cases hm : nv.1 ∈ v
      · rw [if_pos hm]
        have : ¬ m = nv.1 := fun h => (hne nv (List.mem_cons_self nv rest)) h.symm
        simp [this]
      · rw [if_neg hm]

theorem setPV_cache_match (v : List String) :
    ∀ (inc : List (String × Int)) (s : CalcState),
      (inc.map Prod.fst).Nodup →
      ∀ nv ∈ inc, nv.1 ∈ v →
      (setParamValuesFull v inc s).cache nv.1 = nv.2 := by
  intro inc
  induction inc with
  | nil => intro s _ nv h; exact absurd h (List.not_mem_nil nv)
  | cons q rest ih =>
      intro s hnd nv hmem hv
      rw [List.map_cons, List.nodup_cons] at hnd
      rcases List.mem_cons.mp hmem with h' | h'
      · rw [setParamValuesFull]
        have hrest : ∀ p ∈ rest, p.1 ≠ nv.1 := by
          intro p hp he
          exact hnd.1 (h' ▸ he ▸ List.mem_map_of_mem Prod.fst hp)
        rw [setPV_cache_nomatch v rest _ nv.1 hrest]
        rw [h'] at hv ⊢
        rw [if_pos hv]
        simp
      · rw [setParamValuesFull]
        exact ih _ hnd.2 nv h' hv

theorem setPV_id_of_cached (v : List String) :
    ∀ (inc : List (String × Int)) (s : CalcState),
      (∀ nv ∈ inc, nv.1 ∈ v → s.cache nv.1 = nv.2) →
      (setParamValuesFull v inc s).tocalc = s.tocalc
      ∧ ∀ m, (setParamValuesFull v inc s).cache m = s.cache m := by
  intro inc
  induction inc with
  | nil => intro s _; exact ⟨rfl, fun _ => rfl⟩
  | cons nv rest ih =>
      intro s hc
      rw [setParamValuesFull]
      by_cases hm : nv.1 ∈ v
      · rw [if_pos hm]
        have hcv : s.cache nv.1 = nv.2 := hc nv (List.mem_cons_self nv rest) hm
        have hs' :
            ({ s with
                tocalc := if s.cache nv.1 = nv.2 then s.tocalc else true,
                cache := fun n => if n = nv.1 then nv.2 else s.cache n } : CalcState)
              = { s with cache := fun n => if n = nv.1 then nv.2 else s.cache n } := by
          simp [hcv]
        rw [hs']
        have hcache : ∀ m, (fun n => if n = nv.1 then nv.2 else s.cache n) m = s.cache m := by
          intro m
          by_cases hmn : m = nv.1
          · simp [hmn, hcv]
          · simp [hmn]
        obtain ⟨ht, hca⟩ := ih { s with cache := fun n => if n = nv.1 then nv.2 else s.cache n }
          (by
            intro q hq hqv
            have := hc q (List.mem_cons_of_mem nv hq) hqv
            simpa [hcache q.1] using this)
        refine ⟨ht, ?_⟩
        intro m
        rw [hca m]
        exact hcache m
      · rw [if_neg hm]
        exact ih s (fun q hq hqv => hc q (List.mem_cons_of_mem nv hq) hqv)

/-- **C4**: `RuntimeInfo.tocalculate` (base.py 544-546) reads true exactly
when the calculator's own dirty flag is set or some calculator in its
`requires` set currently has `calculated = True`; in particular, if B
requires A, and A is forced dirty and then calculated, B's `tocalculate` is
true on the next evaluation even though B's own parameter values are
unchanged (the incoming values all equal B's cached ones). -/
theorem C4_tocalculate_dirty_propagation (req : Nat → List Nat) :
    (∀ (w : CalcWorld) (c : Nat),
        tocalculate req w c = true ↔
          ((w c).tocalc = true ∨ ∃ r ∈ req c, (w r).calculated = true))
    ∧ ∀ (w : CalcWorld) (A B : Nat), A ∈ req B →
        ∀ (varied : Nat → List String) (incoming : List (String × Int)),
          (∀ nv ∈ incoming, ((calcStep req (forceDirty w A) A) B).cache nv.1 = nv.2) →
          tocalculate req
            (updW (calcStep req (forceDirty w A) A) B
              (setParamValuesFull (varied B) incoming
                ((calcStep req (forceDirty w A) A) B))) B = true := by
  constructor
  · intro w c
    simp [tocalculate, List.any_eq_true]
  · intro w A B hAB varied incoming _
    have hforce : tocalculate req (forceDirty w A) A = true := by
      simp [tocalculate, forceDirty, updW]
    have hA1 : ((calcStep req (forceDirty w A) A) A).calculated = true := by
      rw [calcStep, if_pos hforce, updW_self]
    have hA2 :
        ((updW (calcStep req (forceDirty w A) A) B
            (setParamValuesFull (varied B) incoming
              ((calcStep req (forceDirty w A) A) B))) A).calculated = true := by
      by_cases hab : A = B
      · rw [hab, updW_self, setPV_calculated, ← hab]
        exact hA1
      · rw [updW_ne _ _ _ hab]
        exact hA1
    simp only [tocalculate, Bool.or_eq_true, List.any_eq_true]
    right
    exact ⟨A, hAB, hA2⟩

/-- Witness for C4: in the diamond graph, calculator 1 requires 3; force 3
dirty, calculate it, and 1 is due for recalculation with unchanged inputs. -/
theorem C4_tocalculate_dirty_propagation_witness :
    tocalculate exReq
      (updW (calcStep exReq (forceDirty exCW 3) 3) 1
        (setParamValuesFull ((fun _ => []) 1) []
          ((calcStep exReq (forceDirty exCW 3) 3) 1))) 1 = true :=
  (C4_tocalculate_dirty_propagation exReq).2 exCW 3 1 (by decide) (fun _ => [])
    [] (fun nv h => absurd h (List.not_mem_nil nv))

theorem pipelinePass_untouched (req : Nat → List Nat) (varied : Nat → List String)
    (inc : List (String × Int)) :
    ∀ (cs : List Nat) (w : CalcWorld) (x : Nat), x ∉ cs →
      pipelinePass req varied inc cs w x = w x := by
  intro cs
  induction cs with
  | nil => intro w x _; rfl
  | cons c rest ih =>
      intro w x hx
      have hxc : x ≠ c := fun h => hx (h ▸ List.mem_cons_self c rest)
      rw [pipelinePass, ih _ _ (fun h => hx (List.mem_cons_of_mem c h)),
        calcStep_ne _ _ _ hxc, updW_ne _ _ _ hxc]

theorem markAllDirty_untouched :
    ∀ (L : List Nat) (w : CalcWorld) (x : Nat), x ∉ L → markAllDirty L w x = w x := by
  intro L
  induction L with
  | nil => intro w x _; rfl
  | cons c rest ih =>
      intro w x hx
      have hxc : x ≠ c := fun h => hx (h ▸ List.mem_cons_self c rest)
      rw [markAllDirty, ih _ _ (fun h => hx (List.mem_cons_of_mem c h)), forceDirty,
        updW_ne _ _ _ hxc]

theorem markAllDirty_cache :
    ∀ (L : List Nat) (w : CalcWorld) (x : Nat),
      (markAllDirty L w x).cache = (w x).cache := by
  intro L
  induction L with
  | nil => intro w x; rfl
  | cons c rest ih =>
      intro w x
      rw [markAllDirty, ih]
      by_cases hxc : x = c
      · rw [hxc, forceDirty, updW_self]
      · rw [forceDirty, updW_ne _ _ _ hxc]

theorem markAllDirty_tocalc :
    ∀ (L : List Nat) (w : CalcWorld) (x : Nat), x ∈ L →
      (markAllDirty L w x).tocalc = true := by
  intro L
  induction L with
  | nil => intro w x hx; exact absurd hx (List.not_mem_nil x)
  | cons c rest ih =>
      intro w x hx
      by_cases hr : x ∈ rest
      · exact ih _ x hr
      · have hxc : x = c := by
          rcases List.mem_cons.mp hx with h' | h'
          · exact h'
          · exact absurd h' hr
        rw [markAllDirty, markAllDirty_untouched rest _ x hr, hxc, forceDirty, updW_self]

/-- After the first pass of `BasePipeline.calculate` over an all-dirty,
duplicate-free calculator list, every calculator has executed
(`calculated = True`), its dirty flag is cleared, and its value cache is the
merged incoming one. -/
theorem pipelinePass_first (req : Nat → List Nat) (varied : Nat → List String)
    (inc : List (String × Int)) :
    ∀ (cs : List Nat) (w : CalcWorld), cs.Nodup →
      (∀ c ∈ cs, (w c).tocalc = true) →
      ∀ c ∈ cs,
        (pipelinePass req varied inc cs w c).calculated = true
        ∧ (pipelinePass req varied inc cs w c).tocalc = false
        ∧ ∀ m, (pipelinePass req varied inc cs w c).cache m
            = (setParamValuesFull (varied c) inc (w c)).cache m := by
  intro cs
  induction cs with
  | nil => intro w _ _ c hc; exact absurd hc (List.not_mem_nil c)
  | cons c0 rest ih =>
      intro w hnd hdirty c hc
      obtain ⟨hc0r, hndr⟩ := List.nodup_cons.mp hnd
      have hstoc : (setParamValuesFull (varied c0) inc (w c0)).tocalc = true :=
        setPV_tocalc_true _ _ _ (hdirty c0 (List.mem_cons_self c0 rest))
      have htc : tocalculate req (updW w c0 (setParamValuesFull (varied c0) inc (w c0))) c0
          = true := by
        simp [tocalculate, updW_self, hstoc]
      have hstep : calcStep req (updW w c0 (setParamValuesFull (varied c0) inc (w c0))) c0
          = updW (updW w c0 (setParamValuesFull (varied c0) inc (w c0))) c0
              { (updW w c0 (setParamValuesFull (varied c0) inc (w c0))) c0 with
                calculated := true, tocalc := false } := by
        rw [calcStep, if_pos htc]
      have hother : ∀ x, x ≠ c0 →
          calcStep req (updW w c0 (setParamValuesFull (varied c0) inc (w c0))) c0 x = w x := by
        intro x hx
        rw [calcStep_ne _ _ _ hx, updW_ne _ _ _ hx]
      rcases List.mem_cons.mp hc with hcc0 | hcr
      · rw [hcc0]
        rw [pipelinePass, pipelinePass_untouched _ _ _ _ _ _ hc0r, hstep, updW_self,
          updW_self]
        exact ⟨rfl, rfl, fun m => rfl⟩
      · have hres := ih (calcStep req (updW w c0 (setParamValuesFull (varied c0) inc (w c0))) c0)
          hndr
          (by
            intro x hx
            have hxne : x ≠ c0 := fun h => hc0r (h ▸ hx)
            rw [hother x hxne]
            exact hdirty x (List.mem_cons_of_mem c0 hx))
          c hcr
        have hcne : c ≠ c0 := fun h => hc0r (h ▸ hcr)
        rw [pipelinePass]
        refine ⟨hres.1, hres.2.1, ?_⟩
        intro m
        rw [hres.2.2 m, hother c hcne]

/-- The second pass of `BasePipeline.calculate` with unchanged values over a
dependency-first list whose flags were cleared by the first pass is a no-op:
every calculator ends with `calculated = False`. -/
theorem pipelinePass_second (req : Nat → List Nat) (varied : Nat → List String)
    (inc : List (String × Int)) :
    ∀ (cs : List Nat) (w : CalcWorld), cs.Nodup →
      (∀ c ∈ cs, (w c).tocalc = false
        ∧ ∀ nv ∈ inc, nv.1 ∈ varied c → (w c).cache nv.1 = nv.2) →
      (∀ c ∈ cs, ∀ r ∈ req c, List.Sublist [r, c] cs ∨ (w r).calculated = false) →
      ∀ c ∈ cs, (pipelinePass req varied inc cs w c).calculated = false := by
  intro cs
  induction cs with
  | nil => intro w _ _ _ c hc; exact absurd hc (List.not_mem_nil c)
  | cons c0 rest ih =>
      intro w hnd hclean hreq c hc
      obtain ⟨hc0r, hndr⟩ := List.nodup_cons.mp hnd
      obtain ⟨htc0, hcache0⟩ := hclean c0 (List.mem_cons_self c0 rest)
      obtain ⟨hpvt, hpvc⟩ := setPV_id_of_cached (varied c0) inc (w c0) hcache0
      have hreq0 : ∀ r ∈ req c0, (w r).calculated = false := by
        intro r hr
        rcases hreq c0 (List.mem_cons_self c0 rest) r hr with hsub | hfalse
        · exfalso
          cases hsub with
          | cons _ h' => exact hc0r (h'.subset (by simp))
          | cons₂ _ h' => exact hc0r (h'.subset (by simp))
        · exact hfalse
      have hpvcalc : (setParamValuesFull (varied c0) inc (w c0)).calculated
          = (w c0).calculated := setPV_calculated _ _ _
      have htc : tocalculate req (updW w c0 (setParamValuesFull (varied c0) inc (w c0))) c0
          = false := by
        rw [tocalculate, updW_self, hpvt, htc0]
        simp only [Bool.false_or]
        rw [List.any_eq_false]
        intro r hr
        by_cases hrc0 : r = c0
        · rw [hrc0, updW_self, hpvcalc]
          have := hreq0 c0 (hrc0 ▸ hr)
          simp [this]
        · rw [updW_ne _ _ _ hrc0]
          have := hreq0 r hr
          simp [this]
      have hstep : calcStep req (updW w c0 (setParamValuesFull (varied c0) inc (w c0))) c0
          = updW (updW w c0 (setParamValuesFull (varied c0) inc (w c0))) c0
              { (updW w c0 (setParamValuesFull (varied c0) inc (w c0))) c0 with
                calculated := false, tocalc := false } := by
        rw [calcStep, if_neg (by rw [htc]; exact Bool.false_ne_true)]
      have hother : ∀ x, x ≠ c0 →
          calcStep req (updW w c0 (setParamValuesFull (varied c0) inc (w c0))) c0 x = w x := by
        intro x hx
        rw [calcStep_ne _ _ _ hx, updW_ne _ _ _ hx]
      have hatc0 :
          calcStep req (updW w c0 (setParamValuesFull (varied c0) inc (w c0))) c0 c0
            = { (updW w c0 (setParamValuesFull (varied c0) inc (w c0))) c0 with
                calculated := false, tocalc := false } := by
        rw [hstep, updW_self]
      rcases List.mem_cons.mp hc with hcc0 | hcr
      · rw [hcc0, pipelinePass, pipelinePass_untouched _ _ _ _ _ _ hc0r, hatc0]
      · have hcne : c ≠ c0 := fun h => hc0r (h ▸ hcr)
        rw [pipelinePass]
        refine ih _ hndr ?_ ?_ c hcr
        · intro x hx
          have hxne : x ≠ c0 := fun h => hc0r (h ▸ hx)
          rw [hother x hxne]
          exact hclean x (List.mem_cons_of_mem c0 hx)
        · intro x hx r hr
          have hxne : x ≠ c0 := fun h => hc0r (h ▸ hx)
          rcases hreq x (List.mem_cons_of_mem c0 hx) r hr with hsub | hfalse
          · cases hsub with
            | cons _ h' => exact Or.inl h'
            | cons₂ _ h' =>
                right
                rw [hatc0]
          · right
            by_cases hrc0 : r = c0
            · rw [hrc0, hatc0]
            · rw [hother r hrc0]
              exact hfalse

/-- **C5**: on a freshly built pipeline (all dirty flags forced true by
`BasePipeline.__init__`), calling `calculate` twice in a row with identical
parameter values executes every calculator on the first call
(`calculated = True` everywhere) and is a no-op on the second call: after it
the `calculated` flag of every calculator in the pipeline is false.  The
key-uniqueness of `incoming` reflects that the merged values form a Python
dict; the rank hypothesis is the acyclicity of the dependency graph. -/
theorem C5_idempotent_recalculation (req : Nat → List Nat) (rank : Nat → Nat)
    (hrank : ∀ x r, r ∈ req x → rank r < rank x)
    (varied : Nat → List String) (incoming : List (String × Int))
    (hkeys : (incoming.map Prod.fst).Nodup)
    (fuel root : Nat) (L : List Nat)
    (hbuild : pipelineCalculators req fuel root = some L) (w : CalcWorld) :
    (∀ c ∈ L,
      (pipelinePass req varied incoming L (markAllDirty L w) c).calculated = true)
    ∧ ∀ c ∈ L,
      (pipelinePass req varied incoming L
        (pipelinePass req varied incoming L (markAllDirty L w)) c).calculated = false := by
  obtain ⟨hnd, htopo⟩ := pipelineCalculators_topo hrank hbuild
  have hdirty : ∀ c ∈ L, (markAllDirty L w c).tocalc = true :=
    fun c hc => markAllDirty_tocalc L w c hc
  have hfirst := pipelinePass_first req varied incoming L (markAllDirty L w) hnd hdirty
  refine ⟨fun c hc => (hfirst c hc).1, ?_⟩
  refine pipelinePass_second req varied incoming L _ hnd ?_ ?_
  · intro c hc
    refine ⟨(hfirst c hc).2.1, ?_⟩
    intro nv hnv hv
    rw [(hfirst c hc).2.2 nv.1]
    have := setPV_cache_match (varied c) incoming (markAllDirty L w c) hkeys nv hnv hv
    exact this
  · intro c hc r hr
    exact Or.inl (htopo c hc r hr).2

/-- Witness for C5 on the diamond pipeline `[3, 2, 1, 0]` with no incoming
values: all four calculators execute on the first pass and none on the
second. -/
theorem C5_idempotent_recalculation_witness :
    (∀ c ∈ ([3, 2, 1, 0] : List Nat),
      (pipelinePass exReq (fun _ => []) [] [3, 2, 1, 0]
        (markAllDirty [3, 2, 1, 0] exCW) c).calculated = true)
    ∧ ∀ c ∈ ([3, 2, 1, 0] : List Nat),
      (pipelinePass exReq (fun _ => []) [] [3, 2, 1, 0]
        (pipelinePass exReq (fun _ => []) [] [3, 2, 1, 0]
          (markAllDirty [3, 2, 1, 0] exCW)) c).calculated = false :=
  C5_idempotent_recalculation exReq exRank
    (by
      intro x r hr
      by_cases h0 : x = 0
      · rw [h0] at hr
        simp [exReq] at hr
        rcases hr with rfl | rfl <;> rw [h0] <;> decide
      · by_cases h1 : x = 1
        · rw [h1] at hr
          simp [exReq] at hr
          rw [hr, h1]; decide
        · by_cases h2 : x = 2
          · rw [h2] at hr
            simp [exReq] at hr
            rw [hr, h2]; decide
          · simp [exReq, h0, h1, h2] at hr)
    (fun _ => []) [] (by simp) 10 0 [3, 2, 1, 0] (by decide) exCW

theorem pcSet_mem {l : List Param} {p q : Param} (h : q ∈ pcSet l p) : q ∈ l ∨ q = p := by
  rw [pcSet] at h
  by_cases hc : (l.any fun r => r.name == p.name) = true
  · rw [if_pos hc] at h
    exact Or.inl h
  · rw [if_neg hc] at h
    rcases List.mem_append.mp h with h' | h'
    · exact Or.inl h'
    · exact Or.inr (List.mem_singleton.mp h')

theorem cloneAgainst_nil (p : Param) : cloneAgainst [] p = p := rfl

theorem map_cloneAgainst_nil (ps : List Param) : ps.map (cloneAgainst []) = ps := by
  induction ps with
  | nil => rfl
  | cons p rest ih => rw [List.map_cons, cloneAgainst_nil, ih]

theorem cloneAgainst_single_ne {z p : Param} (h : p.name ≠ z.name) :
    cloneAgainst [z] p = p := by
  rw [cloneAgainst]
  have hb : (z.name == p.name) = false := beq_eq_false_iff_ne.mpr (fun he => h he.symm)
  simp [List.find?, hb]

theorem map_cloneAgainst_single {z : Param} {ps : List Param}
    (h : ∀ p ∈ ps, p.name ≠ z.name) : ps.map (cloneAgainst [z]) = ps := by
  induction ps with
  | nil => rfl
  | cons p rest ih =>
      rw [List.map_cons, cloneAgainst_single_ne (h p (List.mem_cons_self p rest)),
        ih (fun q hq => h q (List.mem_cons_of_mem p hq))]

theorem unifyCalcs_ext_invariant (rank : Nat) (z : Param) :
    ∀ (calcs : List (List Param)) (i : Nat) (st : UState),
      (∀ ps ∈ calcs, ∀ p ∈ ps, p.name ≠ z.name) →
      unifyCalcs rank [z] calcs i st = unifyCalcs rank [] calcs i st := by
  intro calcs
  induction calcs with
  | nil => intro i st _; rfl
  | cons ps rest ih =>
      intro i st h
      rw [unifyCalcs, unifyCalcs,
        map_cloneAgainst_single (h ps (List.mem_cons_self ps rest)),
        map_cloneAgainst_nil]
      rcases hu : unifyParams rank i ps st [] with e | pr
      · rfl
      · obtain ⟨st', ncp⟩ := pr
        exact ih _ _ (fun qs hqs => h qs (List.mem_cons_of_mem ps hqs))

theorem unifyParams_newParams_provenance (rank i : Nat) :
    ∀ (ps : List Param) (st : UState) (ncp : List Param) (st' : UState)
      (ncp' : List Param),
      unifyParams rank i ps st ncp = .ok (st', ncp') →
      ∀ q ∈ st'.newParams, q ∈ st.newParams ∨ q ∈ ps := by
  intro ps
  induction ps with
  | nil =>
      intro st ncp st' ncp' h q hq
      cases h
      exact Or.inl hq
  | cons p rest ih =>
      intro st ncp st' ncp' h q hq
      rw [unifyParams] at h
      split at h
      · exact absurd h (by simp)
      · rename_i st1 heq
        have hnp : st1.newParams = st.newParams := by
          split at heq
          · split at heq
            · cases heq
              rfl
            · split at heq
              · exact absurd heq (by simp)
              · cases heq
                rfl
          · cases heq
            rfl
        rcases ih _ _ _ _ h q hq with h' | h'
        · rcases pcSet_mem (hnp ▸ h') with h'' | h''
          · exact Or.inl h''
          · refine Or.inr ?_
            rw [h'']
            exact List.mem_cons_self p rest
        · exact Or.inr (List.mem_cons_of_mem p h')

theorem unifyCalcs_newParams_provenance (rank : Nat) :
    ∀ (calcs : List (List Param)) (i : Nat) (st : UState) (u : UState),
      unifyCalcs rank [] calcs i st = .ok u →
      ∀ q ∈ u.newParams, q ∈ st.newParams ∨ ∃ ps ∈ calcs, q ∈ ps := by
  intro calcs
  induction calcs with
  | nil =>
      intro i st u h q hq
      cases h
      exact Or.inl hq
  | cons ps rest ih =>
      intro i st u h q hq
      rw [unifyCalcs, map_cloneAgainst_nil] at h
      rcases heq : unifyParams rank i ps st [] with e | pr
      · rw [heq] at h
        exact absurd h (by simp)
      · rw [heq] at h
        obtain ⟨st1, ncp1⟩ := pr
        rcases ih _ _ _ h q hq with h' | h'
        · rcases unifyParams_newParams_provenance rank i ps st [] st1 ncp1 heq q h'
            with h'' | h''
          · exact Or.inl h''
          · exact Or.inr ⟨ps, List.mem_cons_self ps rest, h''⟩
        · obtain ⟨qs, hqs, hq'⟩ := h'
          exact Or.inr ⟨qs, List.mem_cons_of_mem ps hqs, hq'⟩

/-- **C7**: an externally supplied parameter that no calculator declares and
that no surviving parameter's dependency expression references makes
`_set_params` raise the unattributable `PipelineError` (base.py 140-144).
`_set_params` runs inside `BasePipeline.__init__` (base.py 116), so this
happens during construction, before any calculation hook runs.  The `hok`
hypothesis states that the calculators unify without the external parameter
(otherwise a conflict error would fire first). -/
theorem C7_unattributable_parameter (rank : Nat) (z : Param)
    (calcs : List (List Param)) (u : UState)
    (hdecl : ∀ ps ∈ calcs, ∀ p ∈ ps, p.name ≠ z.name)
    (hdep : ∀ ps ∈ calcs, ∀ p ∈ ps, z.name ∉ p.depends)
    (hok : unifyCalcs rank [] calcs 0 initUState = .ok u) :
    setParams rank [z] [] calcs = .error (.unattributable z.name) := by
  have hprov : ∀ q ∈ u.newParams, ∃ ps ∈ calcs, q ∈ ps := by
    intro q hq
    rcases unifyCalcs_newParams_provenance rank calcs 0 initUState u hok q hq with h | h
    · exact absurd h (List.not_mem_nil q)
    · exact h
  have hnodep : (u.newParams.any fun q => q.depends.contains z.name) = false := by
    rw [List.any_eq_false]
    intro q hq
    obtain ⟨ps, hps, hq'⟩ := hprov q hq
    have hz := hdep ps hps q hq'
    simpa using hz
  have hnohas : pcHas u.newParams z.name = false := by
    rw [pcHas, List.any_eq_false]
    intro q hq
    obtain ⟨ps, hps, hq'⟩ := hprov q hq
    have hz := hdecl ps hps q hq'
    simpa using hz
  have hstep : extStep u.newParams z = u.newParams := by
    rw [extStep, hnodep]
    simp
  have hext : extLoop u.newParams [z] = .error (.unattributable z.name) := by
    rw [extLoop, hstep, hnohas]
    simp
  rw [setParams, unifyCalcs_ext_invariant rank z calcs 0 initUState hdecl, hok]
  show (match extLoop u.newParams [z] with
      | Except.error e => (Except.error e : Except PipelineErr UState)
      | Except.ok np =>
          Except.ok { newParams := prevLoop np [], pfc := u.pfc,
                      warnings := u.warnings, calcParams := u.calcParams })
    = Except.error (.unattributable z.name)
  rw [hext]

/-- Witness for C7: the external parameter `z` cannot be attributed to the
one-calculator pipeline declaring only `x`. -/
theorem C7_unattributable_parameter_witness :
    setParams 0 [pZ] [] [[dVaried]] = .error (.unattributable pZ.name) :=
  C7_unattributable_parameter 0 pZ [[dVaried]] exU7
    (by decide) (by decide) (by rfl)

theorem unifyParams_single_fresh (rank i : Nat) (d : Param) (st : UState)
    (ncp : List Param) (hhas : pcHas st.newParams d.name = false) :
    unifyParams rank i [d] st ncp
      = .ok (⟨pcSet st.newParams d, fun n => if n = d.name then i else st.pfc n,
          st.warnings, st.calcParams⟩, pcSet ncp d) := by
  rw [unifyParams, hhas]
  rfl

theorem unifyParams_single_conflict (rank i : Nat) (d : Param) (st : UState)
    (ncp : List Param) (hhas : pcHas st.newParams d.name = true)
    (hdf : (d.derived && d.fixed) = false)
    (hne : (pcGet st.newParams d.name).getD d ≠ d) :
    unifyParams rank i [d] st ncp = .error (.conflict d.name i (st.pfc d.name)) := by
  rw [unifyParams, hhas, hdf]
  simp only [Bool.false_eq_true, if_false, if_true, if_pos hne]

theorem unifyParams_single_warn (rank i : Nat) (d : Param) (st : UState)
    (ncp : List Param) (hhas : pcHas st.newParams d.name = true)
    (hdf : (d.derived && d.fixed) = true) :
    unifyParams rank i [d] st ncp
      = .ok (⟨pcSet st.newParams d, fun n => if n = d.name then i else st.pfc n,
          (if rank = 0 then st.warnings ++ [d.name] else st.warnings),
          st.calcParams⟩, pcSet ncp d) := by
  rw [unifyParams, hhas, hdf]
  rfl

theorem unifyParams_single_same (rank i : Nat) (d : Param) (st : UState)
    (ncp : List Param) (hhas : pcHas st.newParams d.name = true)
    (hdf : (d.derived && d.fixed) = false)
    (heq : (pcGet st.newParams d.name).getD d = d) :
    unifyParams rank i [d] st ncp
      = .ok (⟨pcSet st.newParams d, fun n => if n = d.name then i else st.pfc n,
          st.warnings, st.calcParams⟩, pcSet ncp d) := by
  rw [unifyParams, hhas, hdf]
  simp only [Bool.false_eq_true, if_false, if_neg (not_not_intro heq), ite_self]
  rfl

/-- **C2 counterexample**: with a varied `x` contributed first and an unequal
derived-and-fixed `x` contributed second — two unequal definitions that are
not both derived-and-fixed — `_set_params` does not raise: the conflict check
(base.py 130-135) consults only the flags of the incoming (second)
definition, so the derived-and-fixed newcomer merely warns. -/
theorem C2_counterexample :
    (dVaried ≠ dDerivedFixed
      ∧ ¬(dVaried.derived = true ∧ dVaried.fixed = true
          ∧ dDerivedFixed.derived = true ∧ dDerivedFixed.fixed = true))
    ∧ isOkE (setParams 0 [] [] [[dVaried], [dDerivedFixed]]) = true := by
  refine ⟨⟨?_, ?_⟩, ?_⟩
  · decide
  · decide
  · rfl

/-- **C2, amended**: if two calculators contribute a parameter of the same
qualified name with unequal definitions and the later (second) contribution
is not derived-and-fixed, `_set_params` raises the conflict `PipelineError`
identifying both contributing calculators (index 1 current, index 0
earlier); and if the two definitions are identical, unification succeeds and
the unified collection holds exactly one shared entry for the name. -/
theorem C2_amended_unification_conflict (rank : Nat) (d₁ d₂ : Param)
    (hname : d₂.name = d₁.name) :
    (d₁ ≠ d₂ → (d₂.derived && d₂.fixed) = false →
        setParams rank [] [] [[d₁], [d₂]] = .error (.conflict d₂.name 1 0))
    ∧ (d₁ = d₂ →
        ((setParams rank [] [] [[d₁], [d₂]]).toOption.map
            (fun u => ((u.newParams.filter fun q => q.name == d₂.name).length,
              pcGet u.newParams d₂.name)))
          = some (1, some d₁)) := by
  have hbeq : (d₁.name == d₂.name) = true := by
    rw [hname]
    exact beq_self_eq_true d₁.name
  have hhas : pcHas [d₁] d₂.name = true := by
    rw [pcHas]
    simp [hbeq]
  have hget : pcGet [d₁] d₂.name = some d₁ := by
    rw [pcGet]
    simp [List.find?, hbeq]
  have hset : pcSet [d₁] d₂ = [d₁] := by
    rw [pcSet]
    simp [hbeq]
  have hfirst : unifyCalcs rank [] [[d₁], [d₂]] 0 initUState
      = unifyCalcs rank [] [[d₂]] 1
          ⟨[d₁], fun n => if n = d₁.name then 0 else 0, [], [(0, [d₁])]⟩ := rfl
  constructor
  · intro hne hdf
    have hcon := unifyParams_single_conflict rank 1 d₂
      ⟨[d₁], fun n => if n = d₁.name then 0 else 0, [], [(0, [d₁])]⟩ []
      hhas hdf (by rw [hget]; simpa using hne)
    have hpfc : (if d₂.name = d₁.name then (0 : Nat) else 0) = 0 := by
      rw [if_pos hname]
    have hcalc : unifyCalcs rank [] [[d₁], [d₂]] 0 initUState
        = .error (.conflict d₂.name 1 0) := by
      rw [hfirst, unifyCalcs, map_cloneAgainst_nil, hcon]
      simp
    rw [setParams, hcalc]
  · intro heq
    have hsame := unifyParams_single_same rank 1 d₂
      ⟨[d₁], fun n => if n = d₁.name then 0 else 0, [], [(0, [d₁])]⟩ []
      hhas
    by_cases hdf : (d₂.derived && d₂.fixed) = true
    · have hwarn := unifyParams_single_warn rank 1 d₂
        ⟨[d₁], fun n => if n = d₁.name then 0 else 0, [], [(0, [d₁])]⟩ [] hhas hdf
      have hcalc : unifyCalcs rank [] [[d₁], [d₂]] 0 initUState
          = .ok ⟨pcSet [d₁] d₂, fun n => if n = d₂.name then 1
                else if n = d₁.name then 0 else 0,
              (if rank = 0 then [d₂.name] else []), [(0, [d₁]), (1, pcSet [] d₂)]⟩ := by
        rw [hfirst, unifyCalcs, map_cloneAgainst_nil, hwarn]
        rfl
      rw [setParams, hcalc, hset]
      show some (([d₁].filter fun q => q.name == d₂.name).length, pcGet [d₁] d₂.name)
          = some (1, some d₁)
      rw [hget]
      simp [List.filter, hbeq]
    · have hdf' : (d₂.derived && d₂.fixed) = false := by
        exact Bool.not_eq_true _ ▸ Bool.eq_false_iff.mpr hdf
      have hsame' := hsame hdf' (by rw [hget, Option.getD_some, heq])
      have hcalc : unifyCalcs rank [] [[d₁], [d₂]] 0 initUState
          = .ok ⟨pcSet [d₁] d₂, fun n => if n = d₂.name then 1
                else if n = d₁.name then 0 else 0,
              [], [(0, [d₁]), (1, pcSet [] d₂)]⟩ := by
        rw [hfirst, unifyCalcs, map_cloneAgainst_nil, hsame']
        rfl
      rw [setParams, hcalc, hset]
      show some (([d₁].filter fun q => q.name == d₂.name).length, pcGet [d₁] d₂.name)
          = some (1, some d₁)
      rw [hget]
      simp [List.filter, hbeq]

/-- Witness for the amended C2: the two unequal varied declarations of `x`
conflict, naming calculators 1 and 0. -/
theorem C2_amended_unification_conflict_witness :
    setParams 0 [] [] [[dVaried], [dVaried2]] = .error (.conflict dVaried2.name 1 0) :=
  (C2_amended_unification_conflict 0 dVaried dVaried2 (by decide)).1
    (by decide) (by decide)

/-- **C3**: when two calculators contribute a derived-and-fixed parameter of
the same qualified name, `_set_params` succeeds: a warning is recorded on the
primary participant only (`mpicomm.rank == 0`, base.py 131-133), and the
earlier (first) contribution is the definition kept in the unified
collection. -/
theorem C3_duplicate_derived_fixed_kept (rank : Nat) (d₁ d₂ : Param)
    (hname : d₂.name = d₁.name)
    (_h₁ : d₁.derived = true ∧ d₁.fixed = true)
    (h₂ : d₂.derived = true ∧ d₂.fixed = true) :
    ((setParams rank [] [] [[d₁], [d₂]]).toOption.map
        (fun u => (pcGet u.newParams d₂.name, u.warnings)))
      = some (some d₁, if rank = 0 then [d₂.name] else []) := by
  have hbeq : (d₁.name == d₂.name) = true := by
    rw [hname]
    exact beq_self_eq_true d₁.name
  have hhas : pcHas [d₁] d₂.name = true := by
    rw [pcHas]
    simp [hbeq]
  have hget : pcGet [d₁] d₂.name = some d₁ := by
    rw [pcGet]
    simp [List.find?, hbeq]
  have hset : pcSet [d₁] d₂ = [d₁] := by
    rw [pcSet]
    simp [hbeq]
  have hfirst : unifyCalcs rank [] [[d₁], [d₂]] 0 initUState
      = unifyCalcs rank [] [[d₂]] 1
          ⟨[d₁], fun n => if n = d₁.name then 0 else 0, [], [(0, [d₁])]⟩ := rfl
  have hwarn := unifyParams_single_warn rank 1 d₂
    ⟨[d₁], fun n => if n = d₁.name then 0 else 0, [], [(0, [d₁])]⟩ []
    hhas (by rw [h₂.1, h₂.2]; rfl)
  have hcalc : unifyCalcs rank [] [[d₁], [d₂]] 0 initUState
      = .ok ⟨pcSet [d₁] d₂, fun n => if n = d₂.name then 1
            else if n = d₁.name then 0 else 0,
          (if rank = 0 then [d₂.name] else []), [(0, [d₁]), (1, pcSet [] d₂)]⟩ := by
    rw [hfirst, unifyCalcs, map_cloneAgainst_nil, hwarn]
    rfl
  rw [setParams, hcalc, hset]
  show some (pcGet [d₁] d₂.name, if rank = 0 then [d₂.name] else [])
      = some (some d₁, if rank = 0 then [d₂.name] else [])
  rw [hget]

/-- Witness for C3: two derived-and-fixed declarations of `x`; the earlier
one (value 1) is kept and one warning is recorded on rank 0. -/
theorem C3_duplicate_derived_fixed_kept_witness :
    ((setParams 0 [] [] [[dDerivedFixed], [dDF2]]).toOption.map
        (fun u => (pcGet u.newParams dDF2.name, u.warnings)))
      = some (some dDerivedFixed, if 0 = 0 then [dDF2.name] else []) :=
  C3_duplicate_derived_fixed_kept 0 dDerivedFixed dDF2 (by decide) (by decide)
    (by decide)

theorem fpList_spec (rb : Nat → List Nat) :
    ∀ fuel : Nat, ∀ ds acc acc' : List Nat,
      fpList rb fuel ds acc = some acc' →
      (∀ x ∈ acc, x ∈ acc')
      ∧ (∀ x ∈ acc', x ∈ acc ∨ ∃ d ∈ ds, Reaches rb d x)
      ∧ (∀ d ∈ ds, ∀ x, Reaches rb d x → x ∈ acc') := by
  intro fuel
  induction fuel with
  | zero =>
      intro ds acc acc' h
      match ds, h with
      | [], h =>
          cases h
          exact ⟨fun x hx => hx, fun x hx => Or.inl hx, by simp⟩
  | succ fuel ih =>
      intro ds acc acc' h
      match ds, h with
      | [], h =>
          cases h
          exact ⟨fun x hx => hx, fun x hx => Or.inl hx, by simp⟩
      | d :: ds, h =>
          rw [fpList] at h
          rcases heq : fpList rb fuel (rb d) (acc ++ [d]) with _ | acc₂
          · rw [heq] at h; cases h
          rw [heq] at h
          obtain ⟨M1, S1, C1⟩ := ih (rb d) (acc ++ [d]) acc₂ heq
          obtain ⟨M2, S2, C2⟩ := ih ds acc₂ acc' h
          refine ⟨?_, ?_, ?_⟩
          · intro x hx
            exact M2 x (M1 x (List.mem_append_left _ hx))
          · intro x hx
            rcases S2 x hx with h' | h'
            · rcases S1 x h' with h'' | h''
              · rcases List.mem_append.mp h'' with h3 | h3
                · exact Or.inl h3
                · rw [List.mem_singleton] at h3
                  exact Or.inr ⟨d, List.mem_cons_self d ds, h3 ▸ Reaches.refl x⟩
              · obtain ⟨y, hy, hr⟩ := h''
                exact Or.inr ⟨d, List.mem_cons_self d ds, Reaches.step hy hr⟩
            · obtain ⟨d', hd', hr⟩ := h'
              exact Or.inr ⟨d', List.mem_cons_of_mem d hd', hr⟩
          · intro d' hd' x hr
            rcases List.mem_cons.mp hd' with h' | h'
            · cases hr with
              | refl =>
                  have : d' ∈ acc₂ := M1 d' (h' ▸ List.mem_append_right acc (by simp))
                  exact M2 d' this
              | step hy hr' =>
                  exact M2 x (C1 _ (h' ▸ hy) x hr')
            · exact C2 d' h' x hr

theorem footprintAcc_spec (rb : Nat → List Nat) (declares : Nat → String → Bool)
    (fuel : Nat) (p : String) :
    ∀ cs acc acc' : List Nat,
      footprintAcc rb declares fuel p cs acc = some acc' →
      ∀ x, x ∈ acc' ↔
        (x ∈ acc ∨ ∃ c ∈ cs, declares c p = true ∧ ∃ y ∈ rb c, Reaches rb y x) := by
  intro cs
  induction cs with
  | nil =>
      intro acc acc' h x
      cases h
      simp
  | cons c rest ih =>
      intro acc acc' h x
      rw [footprintAcc] at h
      by_cases hdc : declares c p = true
      · rw [if_pos hdc] at h
        rcases heq : fpList rb fuel (rb c) acc with _ | acc₂
        · rw [heq] at h; cases h
        rw [heq] at h
        obtain ⟨M, S, C⟩ := fpList_spec rb fuel (rb c) acc acc₂ heq
        have hiff := ih acc₂ acc' h x
        constructor
        · intro hx
          rcases hiff.mp hx with h' | h'
          · rcases S x h' with h'' | h''
            · exact Or.inl h''
            · obtain ⟨y, hy, hr⟩ := h''
              exact Or.inr ⟨c, List.mem_cons_self c rest, hdc, y, hy, hr⟩
          · obtain ⟨c', hc', hd', hex⟩ := h'
            exact Or.inr ⟨c', List.mem_cons_of_mem c hc', hd', hex⟩
        · intro hx
          apply hiff.mpr
          rcases hx with h' | h'
          · exact Or.inl (M x h')
          · obtain ⟨c', hc', hd', y, hy, hr⟩ := h'
            rcases List.mem_cons.mp hc' with h'' | h''
            · subst h''
              exact Or.inl (C y hy x hr)
            · exact Or.inr ⟨c', h'', hd', y, hy, hr⟩
      · rw [if_neg hdc] at h
        have hiff := ih acc acc' h x
        constructor
        · intro hx
          rcases hiff.mp hx with h' | h'
          · exact Or.inl h'
          · obtain ⟨c', hc', hrest⟩ := h'
            exact Or.inr ⟨c', List.mem_cons_of_mem c hc', hrest⟩
        · intro hx
          apply hiff.mpr
          rcases hx with h' | h'
          · exact Or.inl h'
          · obtain ⟨c', hc', hd', hex⟩ := h'
            rcases List.mem_cons.mp hc' with h'' | h''
            · rw [h''] at hd'
              exact absurd hd' hdc
            · exact Or.inr ⟨c', h'', hd', hex⟩

/-- Injectivity on entries of an association list with duplicate-free keys. -/
theorem eq_of_nodup_keys {fps : List (String × List Bool)}
    (hnd : (fps.map Prod.fst).Nodup) {a b : String × List Bool}
    (ha : a ∈ fps) (hb : b ∈ fps) (he : a.1 = b.1) : a = b := by
  induction fps with
  | nil => exact absurd ha (List.not_mem_nil a)
  | cons q rest ih =>
      rw [List.map_cons, List.nodup_cons] at hnd
      rcases List.mem_cons.mp ha with ha' | ha' <;>
        rcases List.mem_cons.mp hb with hb' | hb'
      · rw [ha', hb']
      · exfalso
        apply hnd.1
        have hbq : b.1 = q.1 := by rw [← he, ha']
        exact hbq ▸ List.mem_map_of_mem Prod.fst hb'
      · exfalso
        apply hnd.1
        have haq : a.1 = q.1 := by rw [he, hb']
        exact haq ▸ List.mem_map_of_mem Prod.fst ha'
      · exact ih hnd.2 ha' hb'

/-- **C6 counterexample**: for a single calculator 0 with no dependents that
declares parameter `p`, the footprint computed by `block_params` marks
calculator 0 as *not* touched (`[false]`), although 0 is the parameter's own
declaring calculator (so the claimed footprint — the declaring calculator
plus everything reachable from it through `required_by` — contains 0).  The
Python callback appends only `required_by` members and never the calculator
it is invoked on (base.py 353-356). -/
theorem C6_counterexample :
    footprint exRb exDecl 5 [0] "p" = some [false]
    ∧ (0 ∈ ([0] : List Nat) ∧ exDecl 0 "p" = true ∧ Reaches exRb 0 0) :=
  ⟨by decide, by decide, by decide, Reaches.refl 0⟩

/-- **C6, amended**: the footprint accumulated by `block_params` for a
parameter `p` is exactly the set of calculators reachable from a declaring
calculator by at least one `required_by` step — the declaring calculator
itself is *not* included (unless it is itself reachable); the footprint
tuple is the membership vector of this set over the pipeline list; and two
parameters land in the same block exactly when their footprint tuples are
equal (association by parameter name, names assumed unique as in a unified
parameter collection). -/
theorem C6_amended_footprint (rb : Nat → List Nat) (declares : Nat → String → Bool)
    (fuel : Nat) (p : String) (L acc : List Nat)
    (h : footprintAcc rb declares fuel p L [] = some acc) :
    (∀ x, x ∈ acc ↔ ∃ c ∈ L, declares c p = true ∧ ∃ y ∈ rb c, Reaches rb y x)
    ∧ footprint rb declares fuel L p = some (L.map fun c => acc.contains c)
    ∧ ∀ fps : List (String × List Bool),
        (fps.map Prod.fst).Nodup →
        ∀ a b : String × List Bool, a ∈ fps → b ∈ fps →
          ((∃ blk ∈ paramBlocks fps, a.1 ∈ blk ∧ b.1 ∈ blk) ↔ a.2 = b.2) := by
  refine ⟨?_, ?_, ?_⟩
  · intro x
    have := footprintAcc_spec rb declares fuel p L [] acc h x
    simpa using this
  · rw [footprint, h]
    rfl
  · intro fps hnd a b ha hb
    constructor
    · rintro ⟨blk, hblk, hab, hbb⟩
      rw [paramBlocks] at hblk
      obtain ⟨uf, _, hblk'⟩ := List.mem_map.mp hblk
      rw [← hblk'] at hab hbb
      obtain ⟨qa, hqa, hqa1⟩ := List.mem_map.mp hab
      obtain ⟨qb, hqb, hqb1⟩ := List.mem_map.mp hbb
      obtain ⟨hqa2, hqa3⟩ := List.mem_filter.mp hqa
      obtain ⟨hqb2, hqb3⟩ := List.mem_filter.mp hqb
      have hqaa : qa = a := eq_of_nodup_keys hnd hqa2 ha hqa1
      have hqbb : qb = b := eq_of_nodup_keys hnd hqb2 hb hqb1
      have h1 : a.2 = uf := by
        rw [← hqaa]
        exact eq_of_beq hqa3
      have h2 : b.2 = uf := by
        rw [← hqbb]
        exact eq_of_beq hqb3
      rw [h1, h2]
    · intro hab
      refine ⟨(fps.filter fun q => q.2 == a.2).map Prod.fst, ?_, ?_, ?_⟩
      · rw [paramBlocks]
        apply List.mem_map_of_mem
        rw [List.mem_dedup]
        exact List.mem_map_of_mem Prod.snd ha
      · apply List.mem_map_of_mem
        rw [List.mem_filter]
        exact ⟨ha, beq_self_eq_true a.2⟩
      · refine List.mem_map_of_mem Prod.fst ?_
        rw [List.mem_filter]
        refine ⟨hb, ?_⟩
        rw [← hab]
        exact beq_self_eq_true a.2

/-- Witness for the amended C6 on the one-calculator world: the accumulated
footprint is empty. -/
theorem C6_amended_footprint_witness :
    (∀ x, x ∈ ([] : List Nat) ↔
        ∃ c ∈ ([0] : List Nat), exDecl c "p" = true ∧ ∃ y ∈ exRb c, Reaches exRb y x)
    ∧ footprint exRb exDecl 5 [0] "p" = some ([0].map fun c => ([] : List Nat).contains c)
    ∧ ∀ fps : List (String × List Bool),
        (fps.map Prod.fst).Nodup →
        ∀ a b : String × List Bool, a ∈ fps → b ∈ fps →
          ((∃ blk ∈ paramBlocks fps, a.1 ∈ blk ∧ b.1 ∈ blk) ↔ a.2 = b.2) :=
  C6_amended_footprint exRb exDecl 5 "p" [0] [] (by rfl)

theorem updI_self (w : IWorld) (c : Nat) (s : RTState) : updI w c s c = s := by
  simp [updI]

theorem updI_ne (w : IWorld) (c : Nat) (s : RTState) {x : Nat} (h : x ≠ c) :
    updI w c s x = w x := by
  simp [updI, h]

theorem Reaches_congr {f g : Nat → List Nat} (hfg : ∀ x, f x = g x) :
    ∀ {a b : Nat}, Reaches f a b → Reaches g a b := by
  intro a b h
  induction h with
  | refl x => exact Reaches.refl x
  | step hy _ ih =>
      refine Reaches.step ?_ ih
      rw [← hfg _]
      exact hy

theorem cascadeFalse_preserve :
    ∀ fuel : Nat, ∀ (ds : List Nat) (w w' : IWorld),
      cascadeFalse fuel w ds = some w' →
      ∀ x, (w' x).requiredBy = (w x).requiredBy ∧ (w' x).updated = (w x).updated := by
  intro fuel
  induction fuel with
  | zero =>
      intro ds w w' h x
      match ds, h with
      | [], h =>
          cases h
          exact ⟨rfl, rfl⟩
  | succ fuel ih =>
      intro ds w w' h x
      match ds, h with
      | [], h =>
          cases h
          exact ⟨rfl, rfl⟩
      | c :: cs, h =>
          rw [cascadeFalse] at h
          rcases heq : cascadeFalse fuel
              (updI w c { w c with initialized := false, pipeline := none })
              ((w c).requiredBy) with _ | w2
          · rw [heq] at h; cases h
          rw [heq] at h
          have h1 := ih _ _ _ heq x
          have h2 := ih _ _ _ h x
          have hupd : ∀ y : Nat,
              ((updI w c { w c with initialized := false, pipeline := none }) y).requiredBy
                = (w y).requiredBy
              ∧ ((updI w c { w c with initialized := false, pipeline := none }) y).updated
                = (w y).updated := by
            intro y
            by_cases hyc : y = c
            · rw [hyc, updI_self]
              exact ⟨rfl, rfl⟩
            · rw [updI_ne _ _ _ hyc]
              exact ⟨rfl, rfl⟩
          exact ⟨by rw [h2.1, h1.1, (hupd x).1], by rw [h2.2, h1.2, (hupd x).2]⟩

theorem cascadeFalse_mono :
    ∀ fuel : Nat, ∀ (ds : List Nat) (w w' : IWorld),
      cascadeFalse fuel w ds = some w' →
      ∀ x, ((w x).initialized = false → (w' x).initialized = false)
        ∧ ((w x).pipeline = none → (w' x).pipeline = none) := by
  intro fuel
  induction fuel with
  | zero =>
      intro ds w w' h x
      match ds, h with
      | [], h =>
          cases h
          exact ⟨fun hx => hx, fun hx => hx⟩
  | succ fuel ih =>
      intro ds w w' h x
      match ds, h with
      | [], h =>
          cases h
          exact ⟨fun hx => hx, fun hx => hx⟩
      | c :: cs, h =>
          rw [cascadeFalse] at h
          rcases heq : cascadeFalse fuel
              (updI w c { w c with initialized := false, pipeline := none })
              ((w c).requiredBy) with _ | w2
          · rw [heq] at h; cases h
          rw [heq] at h
          have h1 := ih _ _ _ heq x
          have h2 := ih _ _ _ h x
          constructor
          · intro hx
            refine h2.1 (h1.1 ?_)
            by_cases hyc : x = c
            · rw [hyc, updI_self]
            · rw [updI_ne _ _ _ hyc]
              exact hx
          · intro hx
            refine h2.2 (h1.2 ?_)
            by_cases hyc : x = c
            · rw [hyc, updI_self]
            · rw [updI_ne _ _ _ hyc]
              exact hx

theorem cascadeFalse_reach :
    ∀ fuel : Nat, ∀ (ds : List Nat) (w w' : IWorld),
      cascadeFalse fuel w ds = some w' →
      ∀ c ∈ ds, ∀ d, Reaches (fun x => (w x).requiredBy) c d →
        (w' d).initialized = false ∧ (w' d).pipeline = none := by
  intro fuel
  induction fuel with
  | zero =>
      intro ds w w' h c hc d _
      match ds, h with
      | [], h => exact absurd hc (List.not_mem_nil c)
  | succ fuel ih =>
      intro ds w w' h c hc d hreach
      match ds, h with
      | [], h => exact absurd hc (List.not_mem_nil c)
      | c0 :: cs, h =>
          rw [cascadeFalse] at h
          rcases heq : cascadeFalse fuel
              (updI w c0 { w c0 with initialized := false, pipeline := none })
              ((w c0).requiredBy) with _ | w2
          · rw [heq] at h; cases h
          rw [heq] at h
          have hrb1 : ∀ y : Nat,
              ((updI w c0 { w c0 with initialized := false, pipeline := none }) y).requiredBy
                = (w y).requiredBy := by
            intro y
            by_cases hyc : y = c0
            · rw [hyc, updI_self]
            · rw [updI_ne _ _ _ hyc]
          have hrb2 : ∀ y : Nat, (w2 y).requiredBy = (w y).requiredBy := by
            intro y
            rw [(cascadeFalse_preserve fuel _ _ _ heq y).1, hrb1 y]
          rcases List.mem_cons.mp hc with hcc | hcc
          · cases hreach with
            | refl =>
                rw [hcc]
                constructor
                · refine (cascadeFalse_mono fuel _ _ _ h c0).1
                    ((cascadeFalse_mono fuel _ _ _ heq c0).1 ?_)
                  rw [updI_self]
                · refine (cascadeFalse_mono fuel _ _ _ h c0).2
                    ((cascadeFalse_mono fuel _ _ _ heq c0).2 ?_)
                  rw [updI_self]
            | step hy hr' =>
                rename_i y
                have h2 := ih _ _ _ heq y (by rw [hcc] at hy; exact hy) d
                  (Reaches_congr (fun x => (hrb1 x).symm) hr')
                exact ⟨(cascadeFalse_mono fuel _ _ _ h d).1 h2.1,
                  (cascadeFalse_mono fuel _ _ _ h d).2 h2.2⟩
          · exact ih _ _ _ h c hcc d (Reaches_congr (fun x => (hrb2 x).symm) hreach)

/-- **C8**: mutating an attached `InitConfig` — setting `args`, setting
`params`, or mutating a keyed entry — sets its `updated` flag and forces the
owning RuntimeInfo's `initialized` flag to false; and whenever a
RuntimeInfo's `initialized` flag is set to false, its cached pipeline is
invalidated (`none`) and `initialized = false` propagates recursively to
every calculator reachable through `required_by`. -/
theorem C8_initconfig_mutation_cascade :
    (∀ (fuel : Nat) (w : IWorld) (c : Nat) (w' : IWorld),
        setInitializedFalse fuel w c = some w' →
        ∀ d, Reaches (fun x => (w x).requiredBy) c d →
          (w' d).initialized = false ∧ (w' d).pipeline = none)
    ∧ (∀ (fuel : Nat) (w : IWorld) (c : Nat) (a : List Int) (w' : IWorld),
        cfgSetArgs fuel w c a = some w' →
        (w' c).updated = true ∧ (w' c).initialized = false ∧ (w' c).pipeline = none)
    ∧ (∀ (fuel : Nat) (w : IWorld) (c : Nat) (ps : List Param) (w' : IWorld),
        cfgSetParams fuel w c ps = some w' →
        (w' c).updated = true ∧ (w' c).initialized = false ∧ (w' c).pipeline = none)
    ∧ ∀ (fuel : Nat) (w : IWorld) (c : Nat) (k : String) (v : Int) (w' : IWorld),
        cfgSetItem fuel w c k v = some w' →
        (w' c).updated = true ∧ (w' c).initialized = false ∧ (w' c).pipeline = none := by
  have hcascade : ∀ (fuel : Nat) (w : IWorld) (c : Nat) (w' : IWorld),
      setInitializedFalse fuel w c = some w' →
      ∀ d, Reaches (fun x => (w x).requiredBy) c d →
        (w' d).initialized = false ∧ (w' d).pipeline = none := by
    intro fuel w c w' h d hreach
    rw [setInitializedFalse] at h
    exact cascadeFalse_reach fuel [c] w w' h c (List.mem_cons_self c []) d hreach
  have hupdated : ∀ (fuel : Nat) (w : IWorld) (c : Nat) (w' : IWorld),
      setUpdated fuel w c true = some w' →
      (w' c).updated = true ∧ (w' c).initialized = false ∧ (w' c).pipeline = none := by
    intro fuel w c w' h
    rw [setUpdated] at h
    rw [if_pos rfl] at h
    obtain ⟨hinit, hpipe⟩ := hcascade fuel _ c w' h c (Reaches.refl c)
    refine ⟨?_, hinit, hpipe⟩
    rw [setInitializedFalse] at h
    rw [(cascadeFalse_preserve fuel _ _ _ h c).2, updI_self]
  refine ⟨hcascade, ?_, ?_, ?_⟩
  · intro fuel w c a w' h
    rw [cfgSetArgs] at h
    obtain ⟨hu, hinit, hpipe⟩ := hupdated fuel _ c w' h
    refine ⟨?_, hinit, hpipe⟩
    rw [hu]
  · intro fuel w c ps w' h
    rw [cfgSetParams] at h
    obtain ⟨hu, hinit, hpipe⟩ := hupdated fuel _ c w' h
    refine ⟨?_, hinit, hpipe⟩
    rw [hu]
  · intro fuel w c k v w' h
    rw [cfgSetItem] at h
    rcases heq : setUpdated fuel w c true with _ | w1
    · rw [heq] at h; cases h
    rw [heq] at h
    obtain hw' : w' = updI w1 c { w1 c with dataKV := (w1 c).dataKV ++ [(k, v)] } := by
      cases h
      rfl
    obtain ⟨hu, hinit, hpipe⟩ := hupdated fuel w c w1 heq
    rw [hw', updI_self]
    exact ⟨hu, hinit, hpipe⟩

/-- Witness for C8: mutating calculator 0's args in the fresh world `exIW`
marks its InitConfig updated and de-initializes it, dropping the cached
pipeline. -/
theorem C8_initconfig_mutation_cascade_witness :
    (exW8 0).updated = true ∧ (exW8 0).initialized = false ∧ (exW8 0).pipeline = none :=
  C8_initconfig_mutation_cascade.2.1 3 exIW 0 [7] exW8 rfl

theorem initializeRT_ne (w : IWorld) (r : Nat) {x : Nat} (h : x ≠ r) :
    initializeRT w r x = w x := by
  rw [initializeRT]
  by_cases hi : (w r).initialized = true
  · rw [if_pos hi]
  · rw [if_neg hi, setInitializedTrue, updI_ne _ _ _ h, updI_ne _ _ _ h]

theorem initializeRT_self_initialized (w : IWorld) (r : Nat) :
    ((initializeRT w r) r).initialized = true := by
  rw [initializeRT]
  by_cases hi : (w r).initialized = true
  · rw [if_pos hi]
    exact hi
  · rw [if_neg hi, setInitializedTrue, updI_self]

theorem initializeRT_initialized_id (w : IWorld) (r : Nat)
    (h : (w r).initialized = true) : initializeRT w r = w := by
  rw [initializeRT, if_pos h]

theorem rbAdd_self_mem (l : List Nat) (c : Nat) : c ∈ rbAdd l c := by
  rw [rbAdd]
  by_cases h : c ∈ l
  · rw [if_pos h]
    exact h
  · rw [if_neg h]
    exact List.mem_append_right l (by simp)

theorem acquireLoop_untouched (c : Nat) :
    ∀ (rs : List Nat) (w : IWorld) (x : Nat), x ∉ rs → acquireLoop c rs w x = w x := by
  intro rs
  induction rs with
  | nil => intro w x _; rfl
  | cons r rest ih =>
      intro w x hx
      have hxr : x ≠ r := fun h => hx (h ▸ List.mem_cons_self r rest)
      rw [acquireLoop, ih _ _ (fun h => hx (List.mem_cons_of_mem r h)),
        updI_ne _ _ _ hxr, initializeRT_ne _ _ hxr]

theorem acquireLoop_preserves (c : Nat) :
    ∀ (rs : List Nat) (w : IWorld) (x : Nat),
      (w x).initialized = true → c ∈ (w x).requiredBy →
      ((acquireLoop c rs w) x).initialized = true
      ∧ c ∈ ((acquireLoop c rs w) x).requiredBy := by
  intro rs
  induction rs with
  | nil => intro w x h1 h2; exact ⟨h1, h2⟩
  | cons r rest ih =>
      intro w x h1 h2
      rw [acquireLoop]
      by_cases hxr : x = r
      · rw [hxr] at h1 h2
        refine ih _ _ ?_ ?_
        · rw [initializeRT_initialized_id w r h1]
          by_cases hxr2 : x = r
          · rw [hxr2, updI_self]
            exact h1
          · rw [updI_ne _ _ _ hxr2]
            rw [hxr] at hxr2
            exact absurd rfl hxr2
        · rw [initializeRT_initialized_id w r h1]
          by_cases hxr2 : x = r
          · rw [hxr2, updI_self]
            exact rbAdd_self_mem _ c
          · rw [hxr] at hxr2
            exact absurd rfl hxr2
      · refine ih _ _ ?_ ?_
        · rw [updI_ne _ _ _ hxr, initializeRT_ne _ _ hxr]
          exact h1
        · rw [updI_ne _ _ _ hxr, initializeRT_ne _ _ hxr]
          exact h2

theorem acquireLoop_acquired (c : Nat) :
    ∀ (rs : List Nat) (w : IWorld), ∀ r ∈ rs,
      ((acquireLoop c rs w) r).initialized = true
      ∧ c ∈ ((acquireLoop c rs w) r).requiredBy := by
  intro rs
  induction rs with
  | nil => intro w r hr; exact absurd hr (List.not_mem_nil r)
  | cons r0 rest ih =>
      intro w r hr
      rw [acquireLoop]
      rcases List.mem_cons.mp hr with hrr | hrr
      · rw [hrr]
        refine acquireLoop_preserves c rest _ r0 ?_ ?_
        · rw [updI_self]
          exact initializeRT_self_initialized w r0
        · rw [updI_self]
          exact rbAdd_self_mem _ c
      · exact ih _ r hrr

/-- **C10 counterexample**: after `setRequires exIW 0 [1]` (calculator 0
acquires requirement 1, so `0 ∈ required_by(1)`), mutating 1's InitConfig
de-initializes 1, and a later `setRequires _ 2 [1]` re-initializes 1 — whose
`clear()` resets `required_by` to the empty set before adding 2
(base.py 477: "otherwise runtime_info is cleared and required_by is lost").
In the resulting world, 1 is still in calculator 0's `requires` list but 0
is no longer a member of 1's `required_by`: the claimed global invariant
fails. -/
theorem C10_counterexample :
    (c10World.map fun w =>
        ((w 0).requires, decide (0 ∈ (w 1).requiredBy), (w 1).requiredBy))
      = some (some [1], false, [2]) := by
  rfl

/-- **C10, amended**: each run of the `RuntimeInfo.requires` setter for a
calculator `c` (with `c` not among its own requirements) leaves every
requirement initialized with `c` registered in its `required_by`, stores the
list, and therefore in the post-state of that call every `R ∈ c.requires`
has `c ∈ R.required_by`.  The consistency is per-call: it can be destroyed
for another dependent later, when a de-initialized requirement is
re-initialized (see the counterexample). -/
theorem C10_amended_requires_setter (w : IWorld) (c : Nat) (rs : List Nat)
    (hc : c ∉ rs) :
    (∀ r ∈ rs, ((setRequires w c rs) r).initialized = true
        ∧ c ∈ ((setRequires w c rs) r).requiredBy)
    ∧ ((setRequires w c rs) c).requires = some rs
    ∧ ∀ r ∈ ((setRequires w c rs) c).requires.getD [],
        c ∈ ((setRequires w c rs) r).requiredBy := by
  have hbase : ∀ r ∈ rs, (setRequires w c rs) r
      = acquireLoop c rs (updI w c { w c with requires := some rs }) r := by
    intro r hr
    have hrc : r ≠ c := fun h => hc (h ▸ hr)
    rw [setRequires, updI_ne _ _ _ hrc]
  have hacq : ∀ r ∈ rs, ((setRequires w c rs) r).initialized = true
      ∧ c ∈ ((setRequires w c rs) r).requiredBy := by
    intro r hr
    rw [hbase r hr]
    exact acquireLoop_acquired c rs _ r hr
  have hreqc : ((setRequires w c rs) c).requires = some rs := by
    rw [setRequires, updI_self]
    show (acquireLoop c rs (updI w c { w c with requires := some rs }) c).requires
      = some rs
    rw [acquireLoop_untouched c rs _ c hc, updI_self]
  refine ⟨hacq, hreqc, ?_⟩
  intro r hr
  rw [hreqc] at hr
  rw [Option.getD_some] at hr
  exact (hacq r hr).2

/-- Witness for the amended C10: calculator 0 acquires requirement 1 in the
fresh world. -/
theorem C10_amended_requires_setter_witness :
    (∀ r ∈ ([1] : List Nat), ((setRequires exIW 0 [1]) r).initialized = true
        ∧ 0 ∈ ((setRequires exIW 0 [1]) r).requiredBy)
    ∧ ((setRequires exIW 0 [1]) 0).requires = some [1]
    ∧ ∀ r ∈ ((setRequires exIW 0 [1]) 0).requires.getD [],
        0 ∈ ((setRequires exIW 0 [1]) r).requiredBy :=
  C10_amended_requires_setter exIW 0 [1] (by decide)

theorem lookup_append_left {l₁ l₂ : List (Nat × Int)} {k : Nat} {v : Int}
    (h : l₁.lookup k = some v) : (l₁ ++ l₂).lookup k = some v := by
  induction l₁ with
  | nil => simp at h
  | cons q t ih =>
      obtain ⟨k1, v1⟩ := q
      rw [List.cons_append, List.lookup_cons]
      rw [List.lookup_cons] at h
      rcases hk : (k == k1) with _ | _
      · rw [hk] at h
        exact ih h
      · rw [hk] at h
        exact h

theorem lookup_append_right {l₁ l₂ : List (Nat × Int)} {k : Nat}
    (h : ∀ q ∈ l₁, (k == q.1) = false) : (l₁ ++ l₂).lookup k = l₂.lookup k := by
  induction l₁ with
  | nil => rfl
  | cons q t ih =>
      obtain ⟨k1, v1⟩ := q
      rw [List.cons_append, List.lookup_cons]
      rw [h ⟨k1, v1⟩ (List.mem_cons_self _ t)]
      exact ih (fun p hp => h p (List.mem_cons_of_mem _ hp))

theorem mem_enumFrom_fst_lt {p : Nat × Int} :
    ∀ (l : List Int) (o : Nat), p ∈ l.enumFrom o → o ≤ p.1 ∧ p.1 < o + l.length := by
  intro l
  induction l with
  | nil => intro o h; simp at h
  | cons x t ih =>
      intro o h
      rw [List.enumFrom_cons] at h
      rcases List.mem_cons.mp h with h' | h'
      · rw [h']
        simp
      · obtain ⟨h1, h2⟩ := ih (o + 1) h'
        constructor
        · omega
        · rw [List.length_cons]
          omega

theorem lookup_enumFrom_map (f : Int → Int) :
    ∀ (l : List Int) (o i : Nat), i < l.length →
      ((l.enumFrom o).map fun q => (q.1, f q.2)).lookup (o + i)
        = some (f (l.getD i 0)) := by
  intro l
  induction l with
  | nil => intro o i hi; simp at hi
  | cons x t ih =>
      intro o i hi
      rw [List.enumFrom_cons, List.map_cons, List.lookup_cons]
      cases i with
      | zero =>
          have hk : ((o + 0) == o) = true := by simp
          rw [hk, List.getD_cons_zero]
      | succ j =>
          have hk : ((o + (j + 1)) == o) = false := by
            simp
          rw [hk, List.getD_cons_succ]
          have harith : o + (j + 1) = (o + 1) + j := by omega
          rw [harith]
          exact ih (o + 1) j (by rw [List.length_cons] at hi; omega)

theorem shardStates_lookup (f : Int → Int) :
    ∀ (sizes : List Nat) (o : Nat) (xs : List Int),
      sizes.sum = xs.length →
      ∀ i, i < xs.length →
        (shardStates f o xs sizes).lookup (o + i) = some (f (xs.getD i 0)) := by
  intro sizes
  induction sizes with
  | nil =>
      intro o xs hsum i hi
      rw [List.sum_nil] at hsum
      omega
  | cons s ss ih =>
      intro o xs hsum i hi
      rw [List.sum_cons] at hsum
      rw [shardStates]
      by_cases his : i < s
      · have hlen : i < (xs.take s).length := by
          rw [List.length_take]
          omega
        have hblock := lookup_enumFrom_map f (xs.take s) o i hlen
        have hgetd : (xs.take s).getD i 0 = xs.getD i 0 := by
          rw [List.getD_eq_getElem?_getD, List.getD_eq_getElem?_getD,
            List.getElem?_take_of_lt his]
        rw [hgetd] at hblock
        exact lookup_append_left hblock
      · have hskip : ∀ q ∈ ((xs.take s).enumFrom o).map fun q => (q.1, f q.2),
            ((o + i) == q.1) = false := by
          intro q hq
          obtain ⟨p, hp, hpq⟩ := List.mem_map.mp hq
          obtain ⟨_, hlt⟩ := mem_enumFrom_fst_lt (xs.take s) o hp
          rw [List.length_take] at hlt
          have hq1 : q.1 = p.1 := by rw [← hpq]
          rw [hq1]
          rw [beq_eq_false_iff_ne]
          omega
        rw [lookup_append_right hskip]
        have hdrop : ss.sum = (xs.drop s).length := by
          rw [List.length_drop]
          omega
        have hi' : i - s < (xs.drop s).length := by
          rw [List.length_drop]
          omega
        have hrec := ih (o + s) (xs.drop s) hdrop (i - s) hi'
        have harith : o + i = (o + s) + (i - s) := by omega
        rw [harith, hrec]
        have hgetd : (xs.drop s).getD (i - s) 0 = xs.getD i 0 := by
          rw [List.getD_eq_getElem?_getD, List.getD_eq_getElem?_getD,
            List.getElem?_drop]
          have : s + (i - s) = i := by omega
          rw [this]
        rw [hgetd]

theorem mapM_range_eq (g : Nat → Option Int) (v : Nat → Int) :
    ∀ n : Nat, (∀ i, i < n → g i = some (v i)) →
      (List.range n).mapM g = some ((List.range n).map v) := by
  intro n
  induction n with
  | zero => intro _; rfl
  | succ n ih =>
      intro h
      rw [List.range_succ, List.mapM_append, ih (fun i hi => h i (by omega)),
        List.map_append]
      have hone : (([n] : List Nat).mapM g) = some [v n] := by
        rw [List.mapM_cons, h n (by omega), List.mapM_nil]
        rfl
      rw [hone]
      rfl

theorem range_map_getD (f : Int → Int) :
    ∀ xs : List Int,
      ((List.range xs.length).map fun i => f (xs.getD i 0)) = xs.map f := by
  intro xs
  induction xs with
  | nil => rfl
  | cons x t ih =>
      rw [List.length_cons, List.range_succ_eq_map, List.map_cons, List.map_map,
        List.map_cons]
      have hcomp : ((fun i => f ((x :: t).getD i 0)) ∘ Nat.succ)
          = fun i => f (t.getD i 0) := by
        funext i
        simp
      rw [List.getD_cons_zero, hcomp, ih]

/-- **C9**: `mpicalculate` reassembles the gathered per-rank results in the
original input order, for every shard-size vector whose sizes sum to the
input length (i.e. for every number of participants): rank-local indices are
offset by the prefix sum of the per-rank sizes, so
`[derived[i] for i in range(cumsizes[-1])]` is exactly the image of the
inputs in their original order. -/
theorem C9_mpicalculate_order (f : Int → Int) (xs : List Int) (sizes : List Nat)
    (hsum : sizes.sum = xs.length) :
    mpicalculate f xs sizes = some (xs.map f) := by
  rw [mpicalculate, hsum]
  rw [mapM_range_eq _ (fun i => f (xs.getD i 0)) xs.length
    (fun i hi => by
      have h := shardStates_lookup f sizes 0 xs hsum i hi
      rw [Nat.zero_add] at h
      exact h)]
  rw [range_map_getD]

/-- Witness for C9: 7 parameter sets scattered as shards of sizes 3, 2, 2
across 3 participants come back in the original order. -/
theorem C9_mpicalculate_order_witness :
    mpicalculate (fun x => x + 1) [1, 2, 3, 4, 5, 6, 7] [3, 2, 2]
      = some ([1, 2, 3, 4, 5, 6, 7].map fun x => x + 1) :=
  C9_mpicalculate_order (fun x => x + 1) [1, 2, 3, 4, 5, 6, 7] [3, 2, 2] (by decide)

end Desilike
